import Mathlib

/-!
# Constant-Q kernel (`cq/kernel.go`): shallow embedding and verified properties

Conventions of the embedding.

* Go `float64` is an ordered field `R`, Go `complex128` a commutative ring `K`
  with conjugation `star` and a scalar action of `R` (exact arithmetic: no
  rounding, no NaN, no infinities).  Every definition is generic in `R` and
  `K`, so it runs on `ℤ`, `ℚ` or Gaussian integers and specialises to `ℝ`, `ℂ`.
* Go `int` is `Int` (no wrap-around: every integer of the kernel is a slice
  length or a slice index).
* A Go slice is a `List`; a Go panic is an `Except.error`.
* Functions of other packages (`math`, `math/cmplx`, `go-dsp/fft`) and helper
  `maxidx`, whose bodies are not in `kernel.go`, are parameters.
-/

namespace CQ

/-- Ways in which the Go code panics. -/
inductive CQError where
  /-- Raised by `panic("Whoops - return empty array? is this even possible?")`. -/
  | emptyKernel
  /-- Raised by `panic("Kernal minNK or maxNK is 0, can't make kernel")`. -/
  | invalidGeometry
  /-- Raised by `panic("Window too small!")`. -/
  | invalidWindowLength
  /-- Raised by `panic("Only SqrtBlackmanHarris window supported currently")`. -/
  | unsupportedWindow
  /-- Go runtime panic: slice index out of range. -/
  | indexOutOfRange
  /-- Go runtime panic: `make` with a negative length or capacity. -/
  | makesliceOutOfRange
  deriving DecidableEq

/-- Result of a Go function that either returns or panics. -/
abbrev Result (α : Type) := Except CQError α

instance instDecidableEqResult {α : Type} [DecidableEq α] : DecidableEq (Result α)
  | .ok a, .ok b => if h : a = b then isTrue (by rw [h]) else isFalse (fun e => h (by cases e; rfl))
  | .error a, .error b =>
    if h : a = b then isTrue (by rw [h]) else isFalse (fun e => h (by cases e; rfl))
  | .ok _, .error _ => isFalse (fun e => by cases e)
  | .error _, .ok _ => isFalse (fun e => by cases e)

/-- Go `l[i]` as a value: panics unless `0 ≤ i < len(l)`. -/
def index {α : Type} (l : List α) (i : Int) : Result α :=
  if i < 0 then .error .indexOutOfRange
  else match l[i.toNat]? with
    | some a => .ok a
    | none => .error .indexOutOfRange

/-- Go `l[i] = a`: panics unless `0 ≤ i < len(l)`. -/
def assign {α : Type} (l : List α) (i : Int) (a : α) : Result (List α) :=
  if 0 ≤ i ∧ i < (l.length : Int) then .ok (l.set i.toNat a)
  else .error .indexOutOfRange

/-- Go `make([]T, n, n)`: `n` zero values, panics when `n < 0`. -/
def make {α : Type} (n : Int) (zero : α) : Result (List α) :=
  if n < 0 then .error .makesliceOutOfRange
  else .ok (List.replicate n.toNat zero)

/-- Go `for i := lo; i < hi; i++ { s = body(s, i) }`. -/
def forLoop {σ : Type} (lo hi : Int) (init : σ) (body : σ → Int → Result σ) : Result σ :=
  List.foldlM (fun (s : σ) (t : Nat) => body s (lo + (t : Int))) init (List.range (hi - lo).toNat)

/-- The `Properties` struct. -/
structure Properties (R : Type) where
  sampleRate : R
  minFrequency : R
  octaves : Int
  binsPerOctave : Int
  fftSize : Int
  fftHop : Int
  atomsPerFrame : Int
  atomSpacing : Int
  firstCentre : Int
  lastCentre : Int
  Q : R

/-- The `Kernel` struct: one `origin` and one coefficient slice per row. -/
structure Kernel (K : Type) where
  origin : List Int
  data : List (List K)

/-- The `CQKernel` struct (the `kernel` pointer is never nil: `NewCQKernel`
always sets it). -/
structure CQKernel (R K : Type) where
  Properties : Properties R
  kernel : Kernel K

/-- Kernel used as a concrete input: one row `[1]` stored at origin `-1`. -/
def negativeOriginKernel : CQKernel ℤ GaussianInt :=
  { Properties :=
      { sampleRate := 0, minFrequency := 0, octaves := 1, binsPerOctave := 1, fftSize := 1,
        fftHop := 1, atomsPerFrame := 1, atomSpacing := 1, firstCentre := 0, lastCentre := 0,
        Q := 0 }
    kernel := { origin := [-1], data := [[1]] } }

/-- Kernel used as a concrete input: two rows over a spectrum of four columns. -/
def sampleKernel : CQKernel ℤ GaussianInt :=
  { Properties :=
      { sampleRate := 0, minFrequency := 0, octaves := 1, binsPerOctave := 2, fftSize := 4,
        fftHop := 1, atomsPerFrame := 1, atomSpacing := 1, firstCentre := 0, lastCentre := 0,
        Q := 0 }
    kernel := { origin := [1, 0], data := [[⟨1, 1⟩, ⟨2, 0⟩], [⟨0, 1⟩]] } }

section Projector

variable {R K : Type} [CommRing K] [StarRing K]

/-- The method `CQKernel.processForward`. -/
def processForward (k : CQKernel R K) (cv : List K) : Result (List K) :=
  if k.kernel.data.length = 0 then .error .emptyKernel
  else do
    let nrows := k.Properties.binsPerOctave * k.Properties.atomsPerFrame
    let rv ← make nrows (0 : K)
    forLoop 0 nrows rv fun rv i => do
      let row ← index k.kernel.data i
      forLoop 0 row.length rv fun rv j => do
        let o ← index k.kernel.origin i
        let c ← index cv (j + o)
        let d ← index row j
        let r ← index rv i
        assign rv i (r + c * d)

/-- The method `CQKernel.ProcessInverse`. -/
def ProcessInverse (k : CQKernel R K) (cv : List K) : Result (List K) :=
  if k.kernel.data.length = 0 then .error .emptyKernel
  else do
    let ncols := k.Properties.binsPerOctave * k.Properties.atomsPerFrame
    let nrows := k.Properties.fftSize
    let rv ← make nrows (0 : K)
    forLoop 0 ncols rv fun rv j => do
      let i0 ← index k.kernel.origin j
      let row ← index k.kernel.data j
      let i1 := i0 + row.length
      forLoop i0 i1 rv fun rv i => do
        let c ← index cv j
        let d ← index row (i - i0)
        let r ← index rv i
        assign rv i (r + c * star d)

/-- The method `CQKernel.BinCount`. -/
def BinCount (k : CQKernel R K) : Int :=
  k.Properties.octaves * k.Properties.binsPerOctave

end Projector

section Sparsifier

variable {R K : Type} [LinearOrderedCommRing R] [CommRing K] [StarRing K] [Algebra R K]

/-- Modelled from the spec: `complexTimes`, defined outside `kernel.go`.  The
spec has "each kept value is replaced by `conj(value) * weight`" and "scale by
`1/fftSize`": the complex value multiplied by the real scalar. -/
def complexTimes (c : K) (r : R) : K :=
  c * algebraMap R K r

/-- The backward scan of the sparsifier,
`lastNZ := 0; for j := len(row)-1; j >= 0; j-- { if cmplx.Abs(row[j]) != 0 { lastNZ = j; break } }`,
with `n = j + 1` columns left to visit. -/
def lastNZLoop (cabs : K → R) (row : List K) : Nat → Result Int
  | 0 => .ok 0
  | n + 1 => do
    let v ← index row (n : Int)
    if cabs v ≠ 0 then .ok (n : Int) else lastNZLoop cabs row n

/-- Local state of the forward scan of the sparsifier: `haveNZ`, `sk.origin[i]`
and `sk.data[i]`. -/
structure ScanState (K : Type) where
  haveNZ : Bool
  origin : Int
  data : List K

/-- Body of the forward scan `for j := 0; j <= lastNZ; j++` of the sparsifier:
`if haveNZ || cmplx.Abs(row[j]) != 0 { if !haveNZ { origin = j }; haveNZ = true;
data = append(data, complexTimes(cmplx.Conj(row[j]), weight)) }`. -/
def scanStep (cabs : K → R) (weight : R) (row : List K) (st : ScanState K) (j : Int) :
    Result (ScanState K) := do
  let keep ← if st.haveNZ then pure true else do
    let v ← index row j
    pure (decide (cabs v ≠ 0))
  if keep then do
    let origin := if !st.haveNZ then j else st.origin
    let v ← index row j
    pure (ScanState.mk true origin (st.data ++ [complexTimes (star v) weight]))
  else pure st

/-- One sparse row: the body of the loop `for i := 0; i < len(kernel.data); i++`
at the end of `NewCQKernel`, for the dense row `row = kernel.data[i]`. -/
def sparsifyRow (cabs : K → R) (weight : R) (row : List K) : Result (Int × List K) := do
  let lastNZ ← lastNZLoop cabs row row.length
  let st ← forLoop 0 (lastNZ + 1) (ScanState.mk false 0 []) (scanStep cabs weight row)
  pure (st.origin, st.data)

/-- The sparsifier of `NewCQKernel`: allocates `sk` with one slot per dense row
and fills slot `i` from dense row `i`. -/
def sparsify (cabs : K → R) (weight : R) (dense : List (List K)) : Result (Kernel K) := do
  let origin ← make (dense.length : Int) (0 : Int)
  let data ← make (dense.length : Int) ([] : List K)
  forLoop 0 (dense.length : Int) (Kernel.mk origin data) fun sk i => do
    let row ← index dense i
    let r ← sparsifyRow cabs weight row
    let origin ← assign sk.origin i r.1
    let data ← assign sk.data i r.2
    pure (Kernel.mk origin data)

end Sparsifier

section Construction

variable {R K : Type} [LinearOrderedField R] [FloorRing R] [CommRing K] [StarRing K]
  [Algebra R K]

/-- Modelled from the spec: the `Window` enumeration, declared outside
`kernel.go`; the spec lists `SqrtBlackmanHarris, SqrtBlackman, SqrtHann,
BlackmanHarris, Blackman, Hann`. -/
inductive Window where
  | SqrtBlackmanHarris
  | SqrtBlackman
  | SqrtHann
  | BlackmanHarris
  | Blackman
  | Hann
  deriving DecidableEq

/-- Modelled from the spec: the `CQParams` record, declared outside `kernel.go`,
with the fields `NewCQKernel` reads. -/
structure CQParams (R : Type) where
  sampleRate : R
  minFrequency : R
  Octaves : Int
  BinsPerOctave : Int
  q : R
  atomHopFactor : R
  threshold : R
  window : Window

/-- Real functions of Go package `math` used by `kernel.go`. -/
structure MathFns (R : Type) where
  /-- The function `math.Pow`. -/
  pow : R → R → R
  /-- The function `math.Cos`. -/
  cos : R → R
  /-- The function `math.Sqrt`. -/
  sqrt : R → R
  /-- The constant `math.Pi`. -/
  pi : R

/-- Complex functions used by `kernel.go` whose bodies are elsewhere. -/
structure CmplxFns (R K : Type) where
  /-- The function `cmplx.Rect` (modulus, phase). -/
  rect : R → R → K
  /-- The function `cmplx.Abs`. -/
  abs : K → R
  /-- The function `fft.FFT` of `go-dsp`. -/
  fft : List K → List K
  /-- Helper `maxidx` (column of maximum magnitude of a row), defined outside
  `kernel.go`. -/
  maxidx : List K → Int

/-- Modelled from the spec: `round`, defined outside `kernel.go`; the spec fixes
"round-half-up semantics (`floor(x+0.5)`)". -/
def round (x : R) : Int :=
  ⌊x + 1 / 2⌋

/-- Modelled from the spec: `roundUp`, defined outside `kernel.go`; the spec
writes it as the ceiling `⌈x⌉`. -/
def roundUp (x : R) : Int :=
  ⌈x⌉

/-- Modelled from the spec: `roundDown`, defined outside `kernel.go`; the spec
writes it as `floor`. -/
def roundDown (x : R) : Int :=
  ⌊x⌋

/-- Modelled from the spec: `nextPowerOf2`, defined outside `kernel.go`; the
spec has "the smallest power of two" at least its argument. -/
def nextPowerOf2 (n : Int) : Int :=
  ((2 ^ Nat.clog 2 n.toNat : Nat) : Int)

/-- Modelled from the spec: `mean`, defined outside `kernel.go`: the arithmetic
mean of a sequence. -/
def mean (xs : List R) : R :=
  xs.sum / (xs.length : R)

/-- Go conversion `int(x)` of a `float64`: truncation toward zero. -/
def truncate (x : R) : Int :=
  if 0 ≤ x then ⌊x⌋ else ⌈x⌉

/-- The function `makeWindow`. -/
def makeWindow (m : MathFns R) (window : Window) (len : Int) : Result (List R) :=
  if len ≤ 0 then .error .invalidWindowLength
  else if window ≠ Window.SqrtBlackmanHarris then .error .unsupportedWindow
  else do
    let win ← make (len - 1) (0 : R)
    let win ← forLoop 0 (len - 1) win fun win i => assign win i 1
    let n : R := ((len - 1 : Int) : R)
    let win ← forLoop 0 (len - 1) win fun win i => do
      let v ← index win i
      assign win i (v * (0.35875 -
        0.48829 * m.cos (2 * m.pi * (i : R) / n) +
        0.14128 * m.cos (4 * m.pi * (i : R) / n) -
        0.01168 * m.cos (6 * m.pi * (i : R) / n)))
    let w0 ← index win 0
    let win := win ++ [w0]
    match window with
    | .SqrtBlackmanHarris | .SqrtBlackman | .SqrtHann =>
      forLoop 0 (win.length : Int) win fun win i => do
        let v ← index win i
        assign win i (m.sqrt v / (len : R))
    | .BlackmanHarris | .Blackman | .Hann =>
      forLoop 0 (win.length : Int) win fun win i => do
        let v ← index win i
        assign win i (v / (len : R))

/-- Integer geometry of `NewCQKernel` (the assignments to `p.atomSpacing`,
`p.firstCentre`, `p.fftSize`, `p.atomsPerFrame`, `p.lastCentre`, `p.fftHop`),
written into the `Properties` record `p`. -/
def layout (p : Properties R) (maxNK minNK atomHopFactor : R) : Properties R :=
  let atomSpacing := round (minNK * atomHopFactor + 1 / 2)
  let firstCentre := atomSpacing * roundUp (((⌈maxNK / 2⌉ : Int) : R) / (atomSpacing : R))
  let fftSize := nextPowerOf2 (firstCentre + roundUp (maxNK / 2))
  let atomsPerFrame := roundDown
    (1 + ((fftSize : R) - ((⌈maxNK / 2⌉ : Int) : R) - (firstCentre : R)) / (atomSpacing : R))
  let lastCentre := firstCentre + (atomsPerFrame - 1) * atomSpacing
  let fftHop := (lastCentre + atomSpacing) - firstCentre
  { p with
    atomSpacing := atomSpacing
    firstCentre := firstCentre
    fftSize := fftSize
    atomsPerFrame := atomsPerFrame
    lastCentre := lastCentre
    fftHop := fftHop }

/-- First part of `NewCQKernel` (up to `p.fftHop`): the derived `Properties`,
or the panic of the `minNK == 0 || maxNK == 0` check. -/
def geometry (m : MathFns R) (params : CQParams R) : Result (Properties R) :=
  let octaves := params.Octaves
  let bpo := params.BinsPerOctave
  let minFrequency := params.minFrequency * m.pow 2 ((octaves : R) - 1 + 1 / (bpo : R))
  let Q := params.q / (m.pow 2 (1 / (bpo : R)) - 1)
  let maxNK : R := ((⌊Q * params.sampleRate / minFrequency + 1 / 2⌋ : Int) : R)
  let minNK : R := ((⌊Q * params.sampleRate /
    (minFrequency * m.pow 2 (((bpo : R) - 1) / (bpo : R))) + 1 / 2⌋ : Int) : R)
  if minNK = 0 ∨ maxNK = 0 then .error .invalidGeometry
  else .ok (layout
    { sampleRate := params.sampleRate, minFrequency := minFrequency, octaves := octaves,
      binsPerOctave := bpo, fftSize := 0, fftHop := 0, atomsPerFrame := 0, atomSpacing := 0,
      firstCentre := 0, lastCentre := 0, Q := Q }
    maxNK minNK params.atomHopFactor)

/-- The thresholding loop of `NewCQKernel`:
`for j := 0; j < fftSize; j++ { if cmplx.Abs(cout[j]) < thresh { cout[j] = 0 }
else { cout[j] = complexTimes(cout[j], 1.0/float64(fftSize)) } }`. -/
def thresholdRow (cabs : K → R) (thresh : R) (fftSize : Int) (cout : List K) :
    Result (List K) :=
  forLoop 0 fftSize cout fun cout j => do
    let v ← index cout j
    if cabs v < thresh then assign cout j 0
    else assign cout j (complexTimes v (1 / (fftSize : R)))

/-- The dense row of atom `i` of a bin: body of the loop
`for i := 0; i < p.atomsPerFrame; i++` of `NewCQKernel`, up to the thresholding. -/
def atomRow (c : CmplxFns R K) (thresh : R) (p : Properties R) (cmplxs : List K) (nk : Int)
    (atomOffset : Int) (i : Int) : Result (List K) := do
  let shift := atomOffset + i * p.atomSpacing
  let cin ← make p.fftSize (0 : K)
  let cin ← forLoop 0 nk cin fun cin j => do
    let v ← index cmplxs j
    assign cin (j + shift) v
  thresholdRow c.abs thresh p.fftSize (c.fft cin)

/-- The dense kernel of `NewCQKernel`: the loop `for k := 1; k <= p.binsPerOctave; k++`
appending one dense row (and origin `0`) per bin and atom. -/
def denseKernel (m : MathFns R) (c : CmplxFns R K) (params : CQParams R) (p : Properties R) :
    Result (Kernel K) :=
  let bpo := params.BinsPerOctave
  if p.binsPerOctave * p.atomsPerFrame < 0 then .error .makesliceOutOfRange
  else
    forLoop 1 (p.binsPerOctave + 1) (Kernel.mk [] []) fun kernel k => do
      let nk := round (p.Q * p.sampleRate /
        (p.minFrequency * m.pow 2 (((k : R) - 1) / (bpo : R))))
      let win ← makeWindow m params.window nk
      let fk := p.minFrequency * m.pow 2 (((k : R) - 1) / (bpo : R))
      let cmplxs ← make nk (0 : K)
      let cmplxs ← forLoop 0 nk cmplxs fun cmplxs i => do
        let arg := (2 * m.pi * fk * (i : R)) / p.sampleRate
        let w ← index win i
        assign cmplxs i (c.rect w arg)
      let atomOffset := p.firstCentre - roundUp ((nk : R) / 2)
      forLoop 0 p.atomsPerFrame kernel fun kernel i => do
        let cout ← atomRow c params.threshold p cmplxs nk atomOffset i
        pure (Kernel.mk (kernel.origin ++ [0]) (kernel.data ++ [cout]))

/-- The column window of the normalisation: `subset[i]` holds the columns
`wx1 .. wx2` of dense row `i`. -/
def columnSubset (data : List (List K)) (wx1 wx2 : Int) : Result (List (List K)) :=
  if 0 < data.length ∧ wx2 - wx1 + 1 < 0 then .error .makesliceOutOfRange
  else do
    let subset ← make (data.length : Int) ([] : List K)
    forLoop wx1 (wx2 + 1) subset fun subset j =>
      forLoop 0 (data.length : Int) subset fun subset i => do
        let row ← index data i
        let v ← index row j
        let si ← index subset i
        assign subset i (si ++ [v])

/-- The matrix `square` of the normalisation:
`square[i][j] = Σ_k subset[k][i] * conj(subset[k][j])`. -/
def gramMatrix (subset : List (List K)) (nrows ncols : Int) : Result (List (List K)) := do
  let square ← make ncols ([] : List K)
  let square ← forLoop 0 ncols square fun square i => do
    let row ← make ncols (0 : K)
    assign square i row
  forLoop 0 ncols square fun square j =>
    forLoop 0 ncols square fun square i => do
      let v ← forLoop 0 nrows (0 : K) fun v k => do
        let sk ← index subset k
        let a ← index sk i
        let b ← index sk j
        pure (v + a * star b)
      let si ← index square i
      let si ← assign si j v
      assign square i si

/-- The working set `wK` of the normalisation:
`for i := int(1.0/q + 0.5); i < ncols-int(1.0/q+0.5)-2; i++
{ wK = append(wK, cmplx.Abs(square[i][i])) }`. -/
def workingSet (cabs : K → R) (q : R) (ncols : Int) (square : List (List K)) :
    Result (List R) :=
  forLoop (truncate (1 / q + 1 / 2)) (ncols - truncate (1 / q + 1 / 2) - 2) [] fun wK i => do
    let si ← index square i
    let v ← index si i
    pure (wK ++ [cabs v])

/-- The normalisation weight of `NewCQKernel` (from `wx1 := maxidx(...)` to
`weight = math.Sqrt(weight)`). -/
def normalisationWeight (m : MathFns R) (c : CmplxFns R K) (q : R) (p : Properties R)
    (data : List (List K)) : Result R := do
  let first ← index data 0
  let wx1 := c.maxidx first
  let last ← index data ((data.length : Int) - 1)
  let wx2 := c.maxidx last
  let subset ← columnSubset data wx1 wx2
  let nrows := (subset.length : Int)
  let s0 ← index subset 0
  let ncols := (s0.length : Int)
  let square ← gramMatrix subset nrows ncols
  let wK ← workingSet c.abs q ncols square
  let weight := (p.fftHop : R) / (p.fftSize : R)
  let weight := if 0 < wK.length then weight / mean wK else weight
  pure (m.sqrt weight)

/-- The constructor `NewCQKernel`. -/
def NewCQKernel (m : MathFns R) (c : CmplxFns R K) (params : CQParams R) :
    Result (CQKernel R K) := do
  let p ← geometry m params
  let kernel ← denseKernel m c params p
  let weight ← normalisationWeight m c params.q p kernel.data
  let sk ← sparsify c.abs weight kernel.data
  pure (CQKernel.mk p sk)

/-- The value `NewCQKernel` stores in `p.minFrequency`:
`params.minFrequency * math.Pow(2.0, float64(p.octaves)-1.0+1.0/float64(p.binsPerOctave))`. -/
def kernelMinFrequency (m : MathFns R) (params : CQParams R) : R :=
  params.minFrequency *
    m.pow 2 ((params.Octaves : R) - 1 + 1 / (params.BinsPerOctave : R))

/-- The value `NewCQKernel` stores in `p.Q`: `q / (math.Pow(2, 1.0/float64(bpo)) - 1.0)`. -/
def kernelQ (m : MathFns R) (params : CQParams R) : R :=
  params.q / (m.pow 2 (1 / (params.BinsPerOctave : R)) - 1)

/-- The local `maxNK` of `NewCQKernel`, as an integer:
`int(math.Floor(p.Q*p.sampleRate/p.minFrequency + 0.5))`. -/
def maxNK (m : MathFns R) (params : CQParams R) : Int :=
  ⌊kernelQ m params * params.sampleRate / kernelMinFrequency m params + 1 / 2⌋

/-- The local `minNK` of `NewCQKernel`, as an integer:
`int(math.Floor(p.Q*p.sampleRate/(p.minFrequency*math.Pow(2.0, (float64(bpo)-1.0)/float64(bpo))) + 0.5))`. -/
def minNK (m : MathFns R) (params : CQParams R) : Int :=
  ⌊kernelQ m params * params.sampleRate /
    (kernelMinFrequency m params *
      m.pow 2 (((params.BinsPerOctave : R) - 1) / (params.BinsPerOctave : R))) + 1 / 2⌋

/-- The local `nk` of bin `k` in `NewCQKernel`:
`round(p.Q * p.sampleRate / (p.minFrequency * math.Pow(2, (float64(k)-1.0)/float64(bpo))))`. -/
def atomLength (m : MathFns R) (params : CQParams R) (p : Properties R) (k : Int) : Int :=
  round (p.Q * p.sampleRate /
    (p.minFrequency * m.pow 2 (((k : R) - 1) / (params.BinsPerOctave : R))))

/-- The atom `cmplxs` of bin `k` in `NewCQKernel`: the window of length `nk`
multiplied by the complex exponential at the bin frequency `fk`. -/
def binAtom (m : MathFns R) (c : CmplxFns R K) (params : CQParams R) (p : Properties R)
    (k : Int) : Result (List K) := do
  let nk := atomLength m params p k
  let win ← makeWindow m params.window nk
  let fk := p.minFrequency * m.pow 2 (((k : R) - 1) / (params.BinsPerOctave : R))
  let cmplxs ← make nk (0 : K)
  forLoop 0 nk cmplxs fun cmplxs i => do
    let arg := (2 * m.pi * fk * (i : R)) / p.sampleRate
    let w ← index win i
    assign cmplxs i (c.rect w arg)

/-- The dense row of bin `k` and atom `i` in `NewCQKernel`: the atom of bin `k`
placed at `shift = p.firstCentre - roundUp(nk/2) + i*p.atomSpacing` in a zero
buffer of `p.fftSize` values, transformed and thresholded. -/
def denseRow (m : MathFns R) (c : CmplxFns R K) (params : CQParams R) (p : Properties R)
    (k i : Int) : Result (List K) := do
  let cmplxs ← binAtom m c params p k
  let nk := atomLength m params p k
  atomRow c params.threshold p cmplxs nk (p.firstCentre - roundUp ((nk : R) / 2)) i

/-- Parameter record used as a concrete input: sample rate `44100`, minimum
frequency `20000`, one octave of one bin, `q = 1`. -/
def degenerateParams (atomHopFactor threshold : R) : CQParams R :=
  { sampleRate := 44100, minFrequency := 20000, Octaves := 1, BinsPerOctave := 1, q := 1,
    atomHopFactor := atomHopFactor, threshold := threshold,
    window := Window.SqrtBlackmanHarris }

end Construction

/-- Rational stand-ins for the `math` functions, used to run the construction on
concrete inputs: `pow b e` is the chord `1 + (b - 1) * e` (exact at `e = 0` and
`e = 1`), `cos` its second-order polynomial, `sqrt` the identity, `pi` is `3`. -/
def rationalMath : MathFns ℚ :=
  { pow := fun b e => 1 + (b - 1) * e
    cos := fun x => 1 - x * x / 2
    sqrt := fun x => x
    pi := 3 }

/-- Rational stand-ins for the complex functions, used to run the construction
on concrete inputs (real-valued complex numbers): `rect` keeps the modulus,
`abs` is the absolute value, `fft` and `maxidx` are trivial. -/
def rationalCmplx : CmplxFns ℚ ℚ :=
  { rect := fun r _ => r
    abs := fun z => |z|
    fft := fun l => l
    maxidx := fun _ => 0 }

/-- Parameter record used as a concrete input: one octave of twelve bins. -/
def sampleParams : CQParams ℚ :=
  { sampleRate := 4, minFrequency := 1, Octaves := 1, BinsPerOctave := 12, q := 1 / 4,
    atomHopFactor := 1 / 4, threshold := 0, window := Window.SqrtBlackmanHarris }

/-- Diagonal matrix used as a concrete input: five columns with the diagonal
`10, 11, 12, 13, 14`. -/
def sampleSquare : List (List ℚ) :=
  [[10, 0, 0, 0, 0], [0, 11, 0, 0, 0], [0, 0, 12, 0, 0], [0, 0, 0, 13, 0], [0, 0, 0, 0, 14]]

/-! ## Theorems -/

section LoopLemmas

variable {α σ : Type}

theorem index_ok (l : List α) (z : Int) (d : α) (h0 : 0 ≤ z) (h1 : z < (l.length : Int)) :
    index l z = .ok (l.getD z.toNat d) := by
  have hlt : z.toNat < l.length := by omega
  unfold index
  rw [if_neg (by omega), List.getElem?_eq_getElem hlt, List.getD_eq_getElem l d hlt]

theorem index_ok_nat (l : List α) (i : Nat) (d : α) (h : i < l.length) :
    index l (i : Int) = .ok (l.getD i d) := by
  have := index_ok l (i : Int) d (by omega) (by omega)
  simpa using this

theorem assign_ok (l : List α) (z : Int) (a : α) (h0 : 0 ≤ z) (h1 : z < (l.length : Int)) :
    assign l z a = .ok (l.set z.toNat a) := by
  unfold assign
  rw [if_pos ⟨h0, h1⟩]

theorem make_ok (n : Int) (a : α) (h : 0 ≤ n) : make n a = .ok (List.replicate n.toNat a) := by
  unfold make
  rw [if_neg (by omega)]

theorem foldlM_range_inv (n : Nat) (init : σ) (f : σ → Nat → Result σ) (Inv : Nat → σ → Prop)
    (h0 : Inv 0 init)
    (hstep : ∀ (t : Nat) (s : σ), t < n → Inv t s → ∃ s2, f s t = .ok s2 ∧ Inv (t + 1) s2) :
    ∀ m, m ≤ n → ∃ s, (List.range m).foldlM f init = .ok s ∧ Inv m s := by
  intro m
  induction m with
  | zero => intro _; exact ⟨init, rfl, h0⟩
  | succ m ih =>
    intro hm
    obtain ⟨s, hs, hinv⟩ := ih (by omega)
    obtain ⟨s2, hs2, hinv2⟩ := hstep m s (by omega) hinv
    refine ⟨s2, ?_, hinv2⟩
    rw [List.range_succ, List.foldlM_append, hs]
    simp only [List.foldlM_cons, List.foldlM_nil]
    show (f s m >>= fun x => pure x) = _
    rw [hs2]
    rfl

/-- Hoare rule for a counted loop: an invariant indexed by the number of
iterations done, preserved by every non-panicking iteration. -/
theorem forLoop_inv (lo hi : Int) (init : σ) (body : σ → Int → Result σ)
    (Inv : Nat → σ → Prop) (h0 : Inv 0 init)
    (hstep : ∀ (t : Nat) (s : σ), t < (hi - lo).toNat → Inv t s →
      ∃ s2, body s (lo + (t : Int)) = .ok s2 ∧ Inv (t + 1) s2) :
    ∃ s, forLoop lo hi init body = .ok s ∧ Inv (hi - lo).toNat s := by
  unfold forLoop
  exact foldlM_range_inv (hi - lo).toNat init (fun s t => body s (lo + (t : Int))) Inv h0 hstep
    (hi - lo).toNat (le_refl _)

theorem index_error (l : List α) (z : Int) (e : CQError) (h : index l z = .error e) :
    e = .indexOutOfRange := by
  unfold index at h
  split at h
  · injection h with h; exact h.symm
  · split at h
    · cases h
    · injection h with h; exact h.symm

theorem assign_error (l : List α) (z : Int) (a : α) (e : CQError)
    (h : assign l z a = .error e) : e = .indexOutOfRange := by
  unfold assign at h
  split at h
  · cases h
  · injection h with h; exact h.symm

theorem make_error (n : Int) (a : α) (e : CQError) (h : make n a = .error e) :
    e = .makesliceOutOfRange := by
  unfold make at h
  split at h
  · injection h with h; exact h.symm
  · cases h

/-- A panic of `x >>= f` is a panic of `x` or of `f`. -/
theorem bind_error_of {β : Type} (P : CQError → Prop) (x : Result α) (f : α → Result β)
    (hx : ∀ e, x = .error e → P e) (hf : ∀ a e, f a = .error e → P e) :
    ∀ e, (x >>= f) = .error e → P e := by
  intro e h
  cases hxv : x with
  | error e2 =>
    rw [hxv] at h
    injection h with h
    rw [← h]
    exact hx e2 hxv
  | ok a =>
    rw [hxv] at h
    exact hf a e h

theorem foldlM_error_of (P : CQError → Prop) (f : σ → α → Result σ)
    (hf : ∀ s a e, f s a = .error e → P e) :
    ∀ (l : List α) (init : σ) (e : CQError), l.foldlM f init = .error e → P e := by
  intro l
  induction l with
  | nil => intro init e h; cases h
  | cons a l ih =>
    intro init e h
    rw [List.foldlM_cons] at h
    exact bind_error_of P (f init a) (fun s => l.foldlM f s) (hf init a) (fun s e2 => ih s e2) e h

/-- A panic of a counted loop is a panic of one of its iterations. -/
theorem forLoop_error_of (P : CQError → Prop) (lo hi : Int) (init : σ)
    (body : σ → Int → Result σ) (hbody : ∀ s i e, body s i = .error e → P e) :
    ∀ e, forLoop lo hi init body = .error e → P e := by
  intro e h
  unfold forLoop at h
  exact foldlM_error_of P (fun s (t : Nat) => body s (lo + (t : Int)))
    (fun s t e2 => hbody s _ e2) _ init e h

/-- A successful `x >>= f` comes from a successful `x`. -/
theorem bind_ok {β : Type} (x : Result α) (f : α → Result β) (b : β)
    (h : (x >>= f) = .ok b) : ∃ a, x = .ok a ∧ f a = .ok b := by
  cases hx : x with
  | error e => rw [hx] at h; cases h
  | ok a => rw [hx] at h; exact ⟨a, rfl, h⟩

/-- A successful loop with at least one iteration has a successful first
iteration. -/
theorem forLoop_ok_first (lo hi : Int) (init : σ) (body : σ → Int → Result σ) (s : σ)
    (hlt : lo < hi) (h : forLoop lo hi init body = .ok s) : ∃ s1, body init lo = .ok s1 := by
  unfold forLoop at h
  obtain ⟨n, hn⟩ : ∃ n, (hi - lo).toNat = n + 1 := ⟨(hi - lo).toNat - 1, by omega⟩
  rw [hn, List.range_succ_eq_map, List.foldlM_cons] at h
  simp only [Nat.cast_zero, add_zero] at h
  obtain ⟨s1, h1, _⟩ := bind_ok _ _ _ h
  exact ⟨s1, h1⟩

/-- A loop with at least one iteration whose first iteration panics, panics. -/
theorem forLoop_first_error (lo hi : Int) (init : σ) (body : σ → Int → Result σ)
    (e : CQError) (hlt : lo < hi) (hbody : body init lo = .error e) :
    forLoop lo hi init body = .error e := by
  unfold forLoop
  obtain ⟨n, hn⟩ : ∃ n, (hi - lo).toNat = n + 1 := ⟨(hi - lo).toNat - 1, by omega⟩
  rw [hn, List.range_succ_eq_map, List.foldlM_cons]
  simp only [Nat.cast_zero, add_zero]
  rw [hbody]
  rfl

/-- A loop with no iteration returns its initial state. -/
theorem forLoop_empty (lo hi : Int) (init : σ) (body : σ → Int → Result σ) (h : hi ≤ lo) :
    forLoop lo hi init body = .ok init := by
  unfold forLoop
  have hn : (hi - lo).toNat = 0 := by omega
  rw [hn]
  rfl

/-- A loop rewriting the first `n` entries of a slice in place,
`for i := 0; i < n; i++ { l[i] = g(i, l[i]) }`. -/
theorem forLoop_update (l : List α) (d : α) (n : Int) (hn : n ≤ (l.length : Int))
    (g : Int → α → α) :
    ∃ s, forLoop 0 n l (fun l i => do
        let v ← index l i
        assign l i (g i v)) = .ok s ∧
      s.length = l.length ∧
      (∀ i : Nat, (i : Int) < n → s.getD i d = g (i : Int) (l.getD i d)) ∧
      ∀ i : Nat, n ≤ (i : Int) → s.getD i d = l.getD i d := by
  have h := forLoop_inv 0 n l (fun l i => do
      let v ← index l i
      assign l i (g i v))
    (fun t s => s.length = l.length ∧
      (∀ i : Nat, i < t → s.getD i d = g (i : Int) (l.getD i d)) ∧
      ∀ i : Nat, t ≤ i → s.getD i d = l.getD i d)
    ⟨rfl, fun i hi => absurd hi (Nat.not_lt_zero i), fun _ _ => rfl⟩
    (by
      intro t s ht ⟨hl, hdone, hrest⟩
      have ht2 : t < l.length := by omega
      refine ⟨s.set t (g (t : Int) (l.getD t d)), ?_, by simp [hl], ?_, ?_⟩
      · simp only [zero_add]
        rw [index_ok_nat s t d (by omega), hrest t (le_refl _)]
        simp only [bind, Except.bind]
        rw [assign_ok _ _ _ (by omega) (by omega)]
        simp
      · intro i hi
        by_cases hit : i = t
        · subst hit
          simp [List.getD_eq_getElem?_getD, List.getElem?_set, hl, ht2]
        · rw [← hdone i (by omega)]
          simp [List.getD_eq_getElem?_getD, List.getElem?_set, Ne.symm hit]
      · intro i hi
        rw [← hrest i (by omega)]
        have hit : t ≠ i := by omega
        simp [List.getD_eq_getElem?_getD, List.getElem?_set, hit])
  obtain ⟨s, hs, hl, hdone, hrest⟩ := h
  refine ⟨s, hs, hl, ?_, ?_⟩
  · intro i hi
    exact hdone i (by omega)
  · intro i hi
    exact hrest i (by omega)

/-- A loop storing the same value in the first `n` entries of a slice,
`for i := 0; i < n; i++ { l[i] = a }`. -/
theorem forLoop_fill {α : Type} (l : List α) (d a : α) (n : Int) (hn : n ≤ (l.length : Int)) :
    ∃ s, forLoop 0 n l (fun l i => assign l i a) = .ok s ∧
      s.length = l.length ∧
      (∀ i : Nat, (i : Int) < n → s.getD i d = a) ∧
      ∀ i : Nat, n ≤ (i : Int) → s.getD i d = l.getD i d := by
  have h := forLoop_inv 0 n l (fun l i => assign l i a)
    (fun t s => s.length = l.length ∧
      (∀ i : Nat, i < t → s.getD i d = a) ∧
      ∀ i : Nat, t ≤ i → s.getD i d = l.getD i d)
    ⟨rfl, fun i hi => absurd hi (Nat.not_lt_zero i), fun _ _ => rfl⟩
    (by
      intro t s ht ⟨hl, hdone, hrest⟩
      have ht2 : t < l.length := by omega
      refine ⟨s.set t a, ?_, by simp [hl], ?_, ?_⟩
      · simp only [zero_add]
        rw [assign_ok _ _ _ (by omega) (by omega)]
        simp
      · intro i hi
        by_cases hit : i = t
        · subst hit
          simp [List.getD_eq_getElem?_getD, List.getElem?_set, hl, ht2]
        · rw [← hdone i (by omega)]
          simp [List.getD_eq_getElem?_getD, List.getElem?_set, Ne.symm hit]
      · intro i hi
        rw [← hrest i (by omega)]
        have hit : t ≠ i := by omega
        simp [List.getD_eq_getElem?_getD, List.getElem?_set, hit])
  obtain ⟨s, hs, hl, hdone, hrest⟩ := h
  refine ⟨s, hs, hl, ?_, ?_⟩
  · intro i hi
    exact hdone i (by omega)
  · intro i hi
    exact hrest i (by omega)

end LoopLemmas

section WindowLemmas

variable {R : Type} [LinearOrderedField R]

/-- For a length of at least two `makeWindow` returns `len` samples: sample `i`
below `len - 1` is the square root of the four-term cosine sum over the
denominator `len - 1`, divided by `len`, and the last sample repeats the first. -/
theorem makeWindow_ok (m : MathFns R) (len : Int) (hlen : 2 ≤ len) :
    ∃ win, makeWindow m Window.SqrtBlackmanHarris len = .ok win ∧
      (win.length : Int) = len ∧
      (∀ i : Nat, (i : Int) < len - 1 → win.getD i 0 =
        m.sqrt (1 * (0.35875 -
          0.48829 * m.cos (2 * m.pi * (((i : Int)) : R) / ((len - 1 : Int) : R)) +
          0.14128 * m.cos (4 * m.pi * (((i : Int)) : R) / ((len - 1 : Int) : R)) -
          0.01168 * m.cos (6 * m.pi * (((i : Int)) : R) / ((len - 1 : Int) : R)))) / (len : R)) ∧
      win.getD (len - 1).toNat 0 = win.getD 0 0 := by
  obtain ⟨w1, hw1, hl1, hv1, _⟩ :=
    forLoop_fill (List.replicate (len - 1).toNat (0 : R)) 0 1 (len - 1) (by simp; omega)
  obtain ⟨w2, hw2, hl2, hv2, _⟩ := forLoop_update w1 0 (len - 1)
    (by rw [hl1]; simp; omega)
    (fun i v => v * (0.35875 -
        0.48829 * m.cos (2 * m.pi * (i : R) / ((len - 1 : Int) : R)) +
        0.14128 * m.cos (4 * m.pi * (i : R) / ((len - 1 : Int) : R)) -
        0.01168 * m.cos (6 * m.pi * (i : R) / ((len - 1 : Int) : R))))
  have hl2b : w2.length = (len - 1).toNat := by rw [hl2, hl1]; simp
  obtain ⟨w3, hw3, hl3, hv3, _⟩ := forLoop_update (w2 ++ [w2.getD 0 0]) 0
    ((w2 ++ [w2.getD 0 0]).length : Int) (le_refl _) (fun _ v => m.sqrt v / (len : R))
  have hl3b : w3.length = (len - 1).toNat + 1 := by rw [hl3]; simp [hl2b]
  refine ⟨w3, ?_, by omega, ?_, ?_⟩
  · unfold makeWindow
    rw [if_neg (by omega), if_neg (by simp), make_ok _ _ (by omega)]
    simp only [bind, Except.bind] at hw2 hw3 ⊢
    rw [hw1]
    simp only []
    rw [hw2]
    simp only []
    rw [index_ok w2 0 0 (le_refl _) (by omega)]
    simp only [Int.toNat_zero]
    exact hw3
  · intro i hi
    have hi2 : i < w2.length := by omega
    rw [hv3 i (by simp; omega), List.getD_append _ _ _ _ hi2, hv2 i hi, hv1 i hi]
  · have h0 : (0 : Nat) < w2.length := by omega
    rw [hv3 _ (by simp; omega), hv3 0 (by simp),
      List.getD_append _ _ _ _ h0, ← hl2b, List.getD_append_right _ _ _ _ (le_refl _)]
    simp

/-- The function `makeWindow` returns only for a positive length and the kind
`SqrtBlackmanHarris`. -/
theorem makeWindow_ok_kind (m : MathFns R) (window : Window) (len : Int) (win : List R)
    (h : makeWindow m window len = .ok win) :
    0 < len ∧ window = Window.SqrtBlackmanHarris := by
  unfold makeWindow at h
  split at h
  · cases h
  · split at h
    · cases h
    · constructor
      · omega
      · by_contra hne
        exact absurd hne (by assumption)

end WindowLemmas

section ForwardLemmas

variable {R K : Type} [CommRing K]

/-- Dot product of one sparse row with the spectrum window starting at its origin. -/
theorem forward_inner (origin : List Int) (cv row rv : List K) (i : Nat)
    (hi : i < rv.length) (hio : i < origin.length)
    (ho : 0 ≤ origin.getD i 0) (hcv : origin.getD i 0 + (row.length : Int) ≤ (cv.length : Int)) :
    ∃ rv2, forLoop 0 (row.length : Int) rv (fun rv j => do
        let o ← index origin (i : Int)
        let c ← index cv (j + o)
        let d ← index row j
        let r ← index rv (i : Int)
        assign rv (i : Int) (r + c * d)) = .ok rv2 ∧
      rv2.length = rv.length ∧
      rv2.getD i 0 = rv.getD i 0 +
        ∑ j in Finset.range row.length,
          cv.getD ((j : Int) + origin.getD i 0).toNat 0 * row.getD j 0 ∧
      ∀ m, m ≠ i → rv2.getD m 0 = rv.getD m 0 := by
  have h := forLoop_inv 0 (row.length : Int) rv (fun rv j => do
        let o ← index origin (i : Int)
        let c ← index cv (j + o)
        let d ← index row j
        let r ← index rv (i : Int)
        assign rv (i : Int) (r + c * d))
    (fun t s => s.length = rv.length ∧
      s.getD i 0 = rv.getD i 0 +
        ∑ j in Finset.range t, cv.getD ((j : Int) + origin.getD i 0).toNat 0 * row.getD j 0 ∧
      ∀ m, m ≠ i → s.getD m 0 = rv.getD m 0)
    ⟨rfl, by simp, fun _ _ => rfl⟩
    (by
      intro t s ht ⟨hlen, hsum, hoth⟩
      have ht2 : t < row.length := by omega
      refine ⟨s.set i (s.getD i 0 + cv.getD ((t : Int) + origin.getD i 0).toNat 0 * row.getD t 0),
        ?_, ?_, ?_, ?_⟩
      · simp only [zero_add]
        rw [index_ok_nat origin i 0 hio, index_ok_nat row t 0 ht2]
        simp only [bind, Except.bind]
        rw [index_ok cv _ 0 (by omega) (by omega), index_ok_nat s i 0 (by omega)]
        simp only []
        rw [assign_ok _ _ _ (by omega) (by omega)]
        simp
      · simp [hlen]
      · rw [Finset.sum_range_succ, ← add_assoc, ← hsum]
        simp [List.getD_eq_getElem?_getD, List.getElem?_set, hlen, hi]
      · intro m hm
        rw [← hoth m hm]
        simp [List.getD_eq_getElem?_getD, List.getElem?_set, Ne.symm hm])
  obtain ⟨s, hs, hinv⟩ := h
  simp only [sub_zero, Int.toNat_ofNat] at hinv
  exact ⟨s, hs, hinv⟩

/-- Outer loop of `processForward`: every row receives its dot product. -/
theorem forward_outer (k : CQKernel R K) (cv : List K) (n : Nat)
    (hdata : k.kernel.data.length = n) (horig : k.kernel.origin.length = n)
    (hb : ∀ i, i < n → 0 ≤ k.kernel.origin.getD i 0 ∧
      k.kernel.origin.getD i 0 + ((k.kernel.data.getD i []).length : Int) ≤ (cv.length : Int)) :
    ∃ rv, forLoop 0 (n : Int) (List.replicate n (0 : K)) (fun rv i => do
        let row ← index k.kernel.data i
        forLoop 0 row.length rv fun rv j => do
          let o ← index k.kernel.origin i
          let c ← index cv (j + o)
          let d ← index row j
          let r ← index rv i
          assign rv i (r + c * d)) = .ok rv ∧
      rv.length = n ∧
      ∀ i, i < n → rv.getD i 0 =
        ∑ j in Finset.range (k.kernel.data.getD i []).length,
          cv.getD ((j : Int) + k.kernel.origin.getD i 0).toNat 0 *
            (k.kernel.data.getD i []).getD j 0 := by
  have h := forLoop_inv 0 (n : Int) (List.replicate n (0 : K)) (fun rv i => do
        let row ← index k.kernel.data i
        forLoop 0 row.length rv fun rv j => do
          let o ← index k.kernel.origin i
          let c ← index cv (j + o)
          let d ← index row j
          let r ← index rv i
          assign rv i (r + c * d))
    (fun t s => s.length = n ∧
      (∀ i, i < t → s.getD i 0 =
        ∑ j in Finset.range (k.kernel.data.getD i []).length,
          cv.getD ((j : Int) + k.kernel.origin.getD i 0).toNat 0 *
            (k.kernel.data.getD i []).getD j 0) ∧
      ∀ i, t ≤ i → s.getD i 0 = 0)
    ⟨by simp, by simp, by
      intro i _
      simp only [List.getD_eq_getElem?_getD, List.getElem?_replicate]
      split <;> rfl⟩
    (by
      intro t s ht ⟨hlen, hdone, hrest⟩
      have ht2 : t < n := by omega
      obtain ⟨rv2, hrun, hlen2, hval, hoth⟩ :=
        forward_inner k.kernel.origin cv (k.kernel.data.getD t []) s t (by omega) (by omega)
          (hb t ht2).1 (hb t ht2).2
      refine ⟨rv2, ?_, by omega, ?_, ?_⟩
      · simp only [zero_add]
        rw [index_ok_nat k.kernel.data t [] (by omega)]
        exact hrun
      · intro i hi
        by_cases hit : i = t
        · subst hit
          rw [hval, hrest i (le_refl _), zero_add]
        · rw [hoth i hit]
          exact hdone i (by omega)
      · intro i hi
        rw [hoth i (by omega)]
        exact hrest i (by omega))
  obtain ⟨s, hs, hinv⟩ := h
  simp only [sub_zero, Int.toNat_ofNat] at hinv
  exact ⟨s, hs, hinv.1, hinv.2.1⟩

/-- On a kernel with at least one row `processForward` never raises the
empty-kernel panic. -/
theorem forward_not_emptyKernel (k : CQKernel R K) (cv : List K)
    (h : k.kernel.data.length ≠ 0) : processForward k cv ≠ .error .emptyKernel := by
  intro hpf
  unfold processForward at hpf
  rw [if_neg h] at hpf
  simp only [] at hpf
  refine (fun hk => hk _ hpf rfl :
    (∀ e, _ = Except.error e → e ≠ CQError.emptyKernel) → False) ?_
  apply bind_error_of
  · intro e he
    rw [make_error _ _ e he]
    decide
  · intro rv
    apply forLoop_error_of
    intro rv i
    apply bind_error_of
    · intro e he
      rw [index_error _ _ e he]
      decide
    · intro row
      apply forLoop_error_of
      intro rv j
      apply bind_error_of
      · intro e he
        rw [index_error _ _ e he]
        decide
      intro o
      apply bind_error_of
      · intro e he
        rw [index_error _ _ e he]
        decide
      intro c
      apply bind_error_of
      · intro e he
        rw [index_error _ _ e he]
        decide
      intro d
      apply bind_error_of
      · intro e he
        rw [index_error _ _ e he]
        decide
      intro r e he
      rw [assign_error _ _ _ e he]
      decide

end ForwardLemmas

section InverseLemmas

variable {R K : Type} [CommRing K] [StarRing K]

/-- Inner loop of `ProcessInverse`: row `j` is scattered over the columns
`[i0, i0 + len(row))`. -/
theorem inverse_inner (cv row rv : List K) (j : Nat) (i0 : Int)
    (hj : j < cv.length) (h0 : 0 ≤ i0) (h1 : i0 + (row.length : Int) ≤ (rv.length : Int)) :
    ∃ rv2, forLoop i0 (i0 + (row.length : Int)) rv (fun rv i => do
        let c ← index cv (j : Int)
        let d ← index row (i - i0)
        let r ← index rv i
        assign rv i (r + c * star d)) = .ok rv2 ∧
      rv2.length = rv.length ∧
      ∀ c : Nat, rv2.getD c 0 = rv.getD c 0 +
        if i0 ≤ (c : Int) ∧ (c : Int) < i0 + (row.length : Int)
        then cv.getD j 0 * star (row.getD ((c : Int) - i0).toNat 0) else 0 := by
  have h := forLoop_inv i0 (i0 + (row.length : Int)) rv (fun rv i => do
        let c ← index cv (j : Int)
        let d ← index row (i - i0)
        let r ← index rv i
        assign rv i (r + c * star d))
    (fun t s => s.length = rv.length ∧
      ∀ c : Nat, s.getD c 0 = rv.getD c 0 +
        if i0 ≤ (c : Int) ∧ (c : Int) < i0 + (t : Int)
        then cv.getD j 0 * star (row.getD ((c : Int) - i0).toNat 0) else 0)
    ⟨rfl, by
      intro c
      rw [if_neg (by omega), add_zero]⟩
    (by
      intro t s ht ⟨hlen, hval⟩
      have ht2 : t < row.length := by omega
      refine ⟨s.set (i0 + (t : Int)).toNat
        (s.getD (i0 + (t : Int)).toNat 0 +
          cv.getD j 0 * star (row.getD (i0 + (t : Int) - i0).toNat 0)), ?_, ?_, ?_⟩
      · simp only []
        rw [index_ok_nat cv j 0 hj]
        simp only [bind, Except.bind]
        rw [index_ok row _ 0 (by omega) (by omega), index_ok s _ 0 (by omega) (by omega)]
        simp only []
        rw [assign_ok _ _ _ (by omega) (by omega)]
      · simp [hlen]
      · intro c
        by_cases hc : (i0 + (t : Int)).toNat = c
        · subst hc
          have e1 : (((i0 + (t : Int)).toNat : Nat) : Int) = i0 + (t : Int) :=
            Int.toNat_of_nonneg (by omega)
          have := hval (i0 + (t : Int)).toNat
          rw [if_neg (by omega), add_zero] at this
          rw [if_pos (by omega), e1]
          simp only [List.getD_eq_getElem?_getD, List.getElem?_set] at this ⊢
          rw [if_pos trivial, if_pos (by omega)]
          simp only [Option.getD_some]
          rw [this]
        · have := hval c
          simp only [List.getD_eq_getElem?_getD, List.getElem?_set] at this ⊢
          rw [if_neg hc, this]
          by_cases hin : i0 ≤ (c : Int) ∧ (c : Int) < i0 + (t : Int)
          · rw [if_pos hin, if_pos (by omega)]
          · rw [if_neg hin, if_neg (by omega)])
  obtain ⟨s, hs, hinv⟩ := h
  have hn : (i0 + (row.length : Int) - i0).toNat = row.length := by omega
  rw [hn] at hinv
  exact ⟨s, hs, hinv⟩

/-- Outer loop of `ProcessInverse`: after all rows, column `c` holds the sum of
the contributions of the rows covering it. -/
theorem inverse_outer (k : CQKernel R K) (cv : List K) (n N : Nat)
    (hdata : k.kernel.data.length = n) (horig : k.kernel.origin.length = n)
    (hcv : n ≤ cv.length)
    (hb : ∀ j, j < n → 0 ≤ k.kernel.origin.getD j 0 ∧
      k.kernel.origin.getD j 0 + ((k.kernel.data.getD j []).length : Int) ≤ (N : Int)) :
    ∃ rv, forLoop 0 (n : Int) (List.replicate N (0 : K)) (fun rv j => do
        let i0 ← index k.kernel.origin j
        let row ← index k.kernel.data j
        let i1 := i0 + row.length
        forLoop i0 i1 rv fun rv i => do
          let c ← index cv j
          let d ← index row (i - i0)
          let r ← index rv i
          assign rv i (r + c * star d)) = .ok rv ∧
      rv.length = N ∧
      ∀ c : Nat, rv.getD c 0 =
        ∑ j in Finset.range n,
          if k.kernel.origin.getD j 0 ≤ (c : Int) ∧
              (c : Int) < k.kernel.origin.getD j 0 + ((k.kernel.data.getD j []).length : Int)
          then cv.getD j 0 *
            star ((k.kernel.data.getD j []).getD ((c : Int) - k.kernel.origin.getD j 0).toNat 0)
          else 0 := by
  have h := forLoop_inv 0 (n : Int) (List.replicate N (0 : K)) (fun rv j => do
        let i0 ← index k.kernel.origin j
        let row ← index k.kernel.data j
        let i1 := i0 + row.length
        forLoop i0 i1 rv fun rv i => do
          let c ← index cv j
          let d ← index row (i - i0)
          let r ← index rv i
          assign rv i (r + c * star d))
    (fun t s => s.length = N ∧
      ∀ c : Nat, s.getD c 0 =
        ∑ j in Finset.range t,
          if k.kernel.origin.getD j 0 ≤ (c : Int) ∧
              (c : Int) < k.kernel.origin.getD j 0 + ((k.kernel.data.getD j []).length : Int)
          then cv.getD j 0 *
            star ((k.kernel.data.getD j []).getD ((c : Int) - k.kernel.origin.getD j 0).toNat 0)
          else 0)
    ⟨by simp, by
      intro c
      simp only [List.getD_eq_getElem?_getD, List.getElem?_replicate, Finset.range_zero,
        Finset.sum_empty]
      split <;> rfl⟩
    (by
      intro t s ht ⟨hlen, hval⟩
      have ht2 : t < n := by omega
      obtain ⟨rv2, hrun, hlen2, hval2⟩ :=
        inverse_inner cv (k.kernel.data.getD t []) s t (k.kernel.origin.getD t 0) (by omega)
          (hb t ht2).1 (by rw [hlen]; exact (hb t ht2).2)
      refine ⟨rv2, ?_, by omega, ?_⟩
      · simp only [zero_add]
        rw [index_ok_nat k.kernel.origin t 0 (by omega),
          index_ok_nat k.kernel.data t [] (by omega)]
        exact hrun
      · intro c
        rw [hval2 c, hval c, Finset.sum_range_succ])
  obtain ⟨s, hs, hinv⟩ := h
  simp only [sub_zero, Int.toNat_ofNat] at hinv
  exact ⟨s, hs, hinv⟩

/-- On a kernel with at least one row `ProcessInverse` never raises the
empty-kernel panic. -/
theorem inverse_not_emptyKernel (k : CQKernel R K) (cv : List K)
    (h : k.kernel.data.length ≠ 0) : ProcessInverse k cv ≠ .error .emptyKernel := by
  intro hpf
  unfold ProcessInverse at hpf
  rw [if_neg h] at hpf
  simp only [] at hpf
  refine (fun hk => hk _ hpf rfl :
    (∀ e, _ = Except.error e → e ≠ CQError.emptyKernel) → False) ?_
  apply bind_error_of
  · intro e he
    rw [make_error _ _ e he]
    decide
  · intro rv
    apply forLoop_error_of
    intro rv j
    apply bind_error_of
    · intro e he
      rw [index_error _ _ e he]
      decide
    intro i0
    apply bind_error_of
    · intro e he
      rw [index_error _ _ e he]
      decide
    intro row
    apply forLoop_error_of
    intro rv i
    apply bind_error_of
    · intro e he
      rw [index_error _ _ e he]
      decide
    intro c
    apply bind_error_of
    · intro e he
      rw [index_error _ _ e he]
      decide
    intro d
    apply bind_error_of
    · intro e he
      rw [index_error _ _ e he]
      decide
    intro r e he
    rw [assign_error _ _ _ e he]
    decide

end InverseLemmas

/-- The backward scan returns the last column of nonzero magnitude among the
first `n`, or `0` when there is none. -/
theorem lastNZLoop_spec {R K : Type} [LinearOrderedCommRing R] [CommRing K]
    (cabs : K → R) (row : List K) (n : Nat) (hn : n ≤ row.length) :
    ∃ L : Nat, lastNZLoop cabs row n = .ok (L : Int) ∧
      ((L < n ∧ cabs (row.getD L 0) ≠ 0 ∧ ∀ j, L < j → j < n → cabs (row.getD j 0) = 0) ∨
        (L = 0 ∧ ∀ j, j < n → cabs (row.getD j 0) = 0)) := by
  induction n with
  | zero => exact ⟨0, rfl, Or.inr ⟨rfl, fun j hj => absurd hj (Nat.not_lt_zero j)⟩⟩
  | succ n ih =>
    obtain ⟨L, hrun, hL⟩ := ih (by omega)
    unfold lastNZLoop
    rw [index_ok_nat row n 0 (by omega)]
    simp only [bind, Except.bind]
    by_cases hv : cabs (row.getD n 0) = 0
    · rw [if_neg (by simpa using hv)]
      refine ⟨L, hrun, ?_⟩
      rcases hL with ⟨h1, h2, h3⟩ | ⟨h1, h2⟩
      · refine Or.inl ⟨by omega, h2, ?_⟩
        intro j hj1 hj2
        by_cases hjn : j = n
        · rw [hjn]; exact hv
        · exact h3 j hj1 (by omega)
      · refine Or.inr ⟨h1, ?_⟩
        intro j hj
        by_cases hjn : j = n
        · rw [hjn]; exact hv
        · exact h2 j (by omega)
    · rw [if_pos hv]
      exact ⟨n, rfl, Or.inl ⟨by omega, hv, fun j h1 h2 => by omega⟩⟩

section SparsifierLemmas

variable {R K : Type} [LinearOrderedCommRing R] [CommRing K] [StarRing K] [Algebra R K]

/-- The forward scan over the columns `0 .. L`: either nothing was kept, or the
span starts at the first column `f` of nonzero magnitude and reaches column `L`. -/
theorem scan_spec (cabs : K → R) (w : R) (row : List K) (L : Nat) (hL : L < row.length) :
    ∃ st, forLoop 0 ((L : Int) + 1) (ScanState.mk false 0 []) (scanStep cabs w row) = .ok st ∧
      ((st.origin = 0 ∧ st.data = [] ∧ ∀ j, j < L + 1 → cabs (row.getD j 0) = 0) ∨
        (∃ f : Nat, f < L + 1 ∧ st.origin = (f : Int) ∧ cabs (row.getD f 0) ≠ 0 ∧
          (∀ j, j < f → cabs (row.getD j 0) = 0) ∧
          st.data = (List.range (L + 1 - f)).map
            (fun u => complexTimes (star (row.getD (f + u) 0)) w))) := by
  have h := forLoop_inv 0 ((L : Int) + 1) (ScanState.mk false 0 []) (scanStep cabs w row)
    (fun t st =>
      (st.haveNZ = false ∧ st.origin = 0 ∧ st.data = [] ∧
        ∀ j, j < t → cabs (row.getD j 0) = 0) ∨
      (st.haveNZ = true ∧ ∃ f : Nat, f < t ∧ st.origin = (f : Int) ∧ cabs (row.getD f 0) ≠ 0 ∧
        (∀ j, j < f → cabs (row.getD j 0) = 0) ∧
        st.data = (List.range (t - f)).map
          (fun u => complexTimes (star (row.getD (f + u) 0)) w)))
    (Or.inl ⟨rfl, rfl, rfl, fun j hj => absurd hj (Nat.not_lt_zero j)⟩)
    (by
      intro t st ht hinv
      have ht2 : t < row.length := by omega
      have hidx : index row ((0 : Int) + (t : Int)) = .ok (row.getD t 0) := by
        rw [zero_add]; exact index_ok_nat row t 0 ht2
      rcases hinv with ⟨hnz, ho, hd, hz⟩ | ⟨hnz, f, hf, ho, hfv, hz, hd⟩
      · by_cases hv : cabs (row.getD t 0) = 0
        · have hv2 := hv
          rw [List.getD_eq_getElem?_getD] at hv2
          refine ⟨st, ?_, Or.inl ⟨hnz, ho, hd, ?_⟩⟩
          · unfold scanStep
            rw [hnz, hidx]
            simp [bind, Except.bind, pure, Except.pure, hv2]
          · intro j hj
            by_cases hjt : j = t
            · rw [hjt]; exact hv
            · exact hz j (by omega)
        · have hv2 := hv
          rw [List.getD_eq_getElem?_getD] at hv2
          refine ⟨ScanState.mk true (t : Int)
            (st.data ++ [complexTimes (star (row.getD t 0)) w]), ?_, Or.inr ⟨rfl, t, ?_⟩⟩
          · unfold scanStep
            rw [hnz, hidx]
            simp [bind, Except.bind, pure, Except.pure, hv2]
          · refine ⟨by omega, rfl, hv, hz, ?_⟩
            simp [hd, List.range_succ]
      · refine ⟨ScanState.mk true st.origin
          (st.data ++ [complexTimes (star (row.getD t 0)) w]), ?_, Or.inr ⟨rfl, f, ?_⟩⟩
        · unfold scanStep
          rw [hnz, hidx]
          simp [bind, Except.bind, pure, Except.pure]
        · refine ⟨by omega, ho, hfv, hz, ?_⟩
          have e : t + 1 - f = (t - f) + 1 := by omega
          have e2 : f + (t - f) = t := by omega
          rw [e, List.range_succ, List.map_append, hd]
          simp [e2])
  obtain ⟨st, hs, hinv⟩ := h
  have hn : ((L : Int) + 1 - 0).toNat = L + 1 := by omega
  rw [hn] at hinv
  refine ⟨st, hs, ?_⟩
  rcases hinv with ⟨_, ho, hd, hz⟩ | ⟨_, f, hf, ho, hfv, hz, hd⟩
  · exact Or.inl ⟨ho, hd, hz⟩
  · exact Or.inr ⟨f, hf, ho, hfv, hz, hd⟩

/-- A dense row of width at least one always sparsifies: to the empty row at
origin `0` when every magnitude is zero, otherwise to the span from the first to
the last column of nonzero magnitude. -/
theorem sparsifyRow_ok (cabs : K → R) (w : R) (row : List K) (hw : 1 ≤ row.length) :
    ∃ o d, sparsifyRow cabs w row = .ok (o, d) ∧
      ((o = 0 ∧ d = [] ∧ ∀ j, j < row.length → cabs (row.getD j 0) = 0) ∨
        (∃ f l : Nat, f ≤ l ∧ l < row.length ∧ o = (f : Int) ∧
          cabs (row.getD f 0) ≠ 0 ∧ cabs (row.getD l 0) ≠ 0 ∧
          (∀ j, j < f → cabs (row.getD j 0) = 0) ∧
          (∀ j, l < j → j < row.length → cabs (row.getD j 0) = 0) ∧
          d = (List.range (l + 1 - f)).map
            (fun u => complexTimes (star (row.getD (f + u) 0)) w))) := by
  obtain ⟨L, hrun, hL⟩ := lastNZLoop_spec cabs row row.length (le_refl _)
  have hLlt : L < row.length := by
    rcases hL with ⟨h1, _⟩ | ⟨h1, _⟩ <;> omega
  obtain ⟨st, hscan, hst⟩ := scan_spec cabs w row L hLlt
  refine ⟨st.origin, st.data, ?_, ?_⟩
  · unfold sparsifyRow
    rw [hrun]
    simp only [bind, Except.bind]
    rw [hscan]
    rfl
  · rcases hL with ⟨_, hLv, hLz⟩ | ⟨hL0, hLz⟩
    · rcases hst with ⟨_, _, hz⟩ | ⟨f, hf, ho, hfv, hz, hd⟩
      · exact absurd (hz L (by omega)) hLv
      · exact Or.inr ⟨f, L, by omega, hLlt, ho, hfv, hLv, hz, hLz, hd⟩
    · rcases hst with ⟨ho, hd, _⟩ | ⟨f, hf, _, hfv, _, _⟩
      · exact Or.inl ⟨ho, hd, hLz⟩
      · exact absurd (hLz f (by omega)) hfv

/-- The sparsifier fills slot `i` of the sparse kernel from dense row `i`. -/
theorem sparsify_ok (cabs : K → R) (w : R) (dense : List (List K))
    (hw : ∀ i, i < dense.length → 1 ≤ (dense.getD i []).length) :
    ∃ sk, sparsify cabs w dense = .ok sk ∧
      sk.origin.length = dense.length ∧ sk.data.length = dense.length ∧
      ∀ i, i < dense.length →
        sparsifyRow cabs w (dense.getD i []) = .ok (sk.origin.getD i 0, sk.data.getD i []) := by
  have h := forLoop_inv 0 (dense.length : Int)
    (Kernel.mk (List.replicate dense.length (0 : Int)) (List.replicate dense.length ([] : List K)))
    (fun sk i => do
      let row ← index dense i
      let r ← sparsifyRow cabs w row
      let origin ← assign sk.origin i r.1
      let data ← assign sk.data i r.2
      pure (Kernel.mk origin data))
    (fun t sk => sk.origin.length = dense.length ∧ sk.data.length = dense.length ∧
      ∀ i, i < t →
        sparsifyRow cabs w (dense.getD i []) = .ok (sk.origin.getD i 0, sk.data.getD i []))
    ⟨by simp, by simp, fun i hi => absurd hi (Nat.not_lt_zero i)⟩
    (by
      intro t sk ht ⟨hol, hdl, hdone⟩
      have ht2 : t < dense.length := by omega
      obtain ⟨o, d, hrun, _⟩ := sparsifyRow_ok cabs w (dense.getD t []) (hw t ht2)
      refine ⟨Kernel.mk (sk.origin.set t o) (sk.data.set t d), ?_, by simp [hol], by simp [hdl], ?_⟩
      · simp only [zero_add]
        rw [index_ok_nat dense t [] ht2]
        simp only [bind, Except.bind]
        rw [hrun]
        simp only []
        rw [assign_ok _ _ _ (by omega) (by omega)]
        simp only []
        rw [assign_ok _ _ _ (by omega) (by omega)]
        simp [pure, Except.pure]
      · intro i hi
        by_cases hit : i = t
        · subst hit
          rw [hrun]
          simp [List.getD_eq_getElem?_getD, List.getElem?_set, hol, hdl, ht2]
        · rw [hdone i (by omega)]
          simp [List.getD_eq_getElem?_getD, List.getElem?_set, Ne.symm hit])
  obtain ⟨sk, hs, hinv⟩ := h
  simp only [sub_zero, Int.toNat_ofNat] at hinv
  refine ⟨sk, ?_, hinv⟩
  unfold sparsify
  rw [make_ok _ _ (by omega), make_ok _ _ (by omega)]
  simpa [bind, Except.bind] using hs

/-- Conjugating a stored coefficient gives back the weighted dense value, and a
column outside the stored span holds a zero dense value. -/
theorem sparsifyRow_contribution (cabs : K → R) (hcabs : ∀ z : K, cabs z = 0 ↔ z = 0)
    (hstar : ∀ r : R, star (algebraMap R K r) = algebraMap R K r) (w : R)
    (row : List K) (o : Int) (d : List K) (hrun : sparsifyRow cabs w row = .ok (o, d))
    (hw : 1 ≤ row.length) (x : K) (c : Nat) (hc : c < row.length) :
    (if o ≤ (c : Int) ∧ (c : Int) < o + (d.length : Int)
      then x * star (d.getD ((c : Int) - o).toNat 0) else 0) =
      x * (algebraMap R K w * row.getD c 0) := by
  obtain ⟨o2, d2, hrun2, h⟩ := sparsifyRow_ok cabs w row hw
  rw [hrun] at hrun2
  injection hrun2 with heq
  injection heq with ho hd
  subst ho hd
  rcases h with ⟨ho, hd, hz⟩ | ⟨f, l, hfl, hl, ho, _, _, hz1, hz2, hd⟩
  · rw [hd, ho, if_neg (by simp), (hcabs _).1 (hz c hc)]
    simp
  · by_cases hin : f ≤ c ∧ c ≤ l
    · have hlen : d.length = l + 1 - f := by rw [hd]; simp
      have hidx : ((c : Int) - o).toNat = c - f := by omega
      rw [if_pos (by omega), hidx, hd, List.getD_eq_getElem?_getD, List.getElem?_map,
        List.getElem?_range (by omega)]
      have e : f + (c - f) = c := by omega
      simp only [Option.map_some', Option.getD_some, complexTimes, e, star_mul, star_star, hstar]
    · have hlen : d.length = l + 1 - f := by rw [hd]; simp
      rw [if_neg (by omega)]
      have hzero : row.getD c 0 = 0 := by
        by_cases hcf : c < f
        · exact (hcabs _).1 (hz1 c hcf)
        · exact (hcabs _).1 (hz2 c (by omega) hc)
      rw [hzero]
      simp

end SparsifierLemmas

/-- The thresholding loop maps every FFT output value to `0` when its magnitude
is below the threshold and to the value scaled by `1/fftSize` otherwise. -/
theorem thresholdRow_ok {R K : Type} [LinearOrderedField R] [CommRing K] [Algebra R K]
    (cabs : K → R) (thresh : R) (fftSize : Int) (cout : List K)
    (hlen : (cout.length : Int) = fftSize) :
    ∃ dense, thresholdRow cabs thresh fftSize cout = .ok dense ∧
      dense.length = cout.length ∧
      ∀ c, c < cout.length → dense.getD c 0 =
        if cabs (cout.getD c 0) < thresh then 0
        else complexTimes (cout.getD c 0) (1 / (fftSize : R)) := by
  have h := forLoop_inv 0 fftSize cout (fun cout j => do
      let v ← index cout j
      if cabs v < thresh then assign cout j 0
      else assign cout j (complexTimes v (1 / (fftSize : R))))
    (fun t s => s.length = cout.length ∧
      (∀ c, c < t → s.getD c 0 =
        if cabs (cout.getD c 0) < thresh then 0
        else complexTimes (cout.getD c 0) (1 / (fftSize : R))) ∧
      ∀ c, t ≤ c → s.getD c 0 = cout.getD c 0)
    ⟨rfl, fun c hc => absurd hc (Nat.not_lt_zero c), fun _ _ => rfl⟩
    (by
      intro t s ht ⟨hl, hdone, hrest⟩
      have ht2 : t < cout.length := by omega
      have hst : s.getD t 0 = cout.getD t 0 := hrest t (le_refl _)
      refine ⟨s.set t (if cabs (cout.getD t 0) < thresh then 0
        else complexTimes (cout.getD t 0) (1 / (fftSize : R))), ?_, by simp [hl], ?_, ?_⟩
      · simp only [zero_add]
        rw [index_ok_nat s t 0 (by omega), hst]
        simp only [bind, Except.bind]
        by_cases hv : cabs (cout.getD t 0) < thresh
        · rw [if_pos hv, if_pos hv, assign_ok _ _ _ (by omega) (by omega)]
          simp
        · rw [if_neg hv, if_neg hv, assign_ok _ _ _ (by omega) (by omega)]
          simp
      · intro c hc
        by_cases hct : c = t
        · subst hct
          simp [List.getD_eq_getElem?_getD, List.getElem?_set, hl, ht2]
        · rw [← hdone c (by omega)]
          simp [List.getD_eq_getElem?_getD, List.getElem?_set, Ne.symm hct]
      · intro c hc
        rw [← hrest c (by omega)]
        have hct : t ≠ c := by omega
        simp [List.getD_eq_getElem?_getD, List.getElem?_set, hct])
  obtain ⟨s, hs, hl, hdone, _⟩ := h
  have hn : (fftSize - 0).toNat = cout.length := by omega
  rw [hn] at hdone
  exact ⟨s, hs, hl, hdone⟩

/-- No dense kernel with at least one row is built for an unsupported window. -/
theorem denseKernel_unsupported {R K : Type} [LinearOrderedField R] [FloorRing R]
    [CommRing K] [Algebra R K] (m : MathFns R) (c : CmplxFns R K) (params : CQParams R)
    (p : Properties R) (kernel : Kernel K) (hwin : params.window ≠ Window.SqrtBlackmanHarris)
    (h : denseKernel m c params p = .ok kernel) : kernel.data = [] := by
  unfold denseKernel at h
  simp only [] at h
  split at h
  · cases h
  · by_cases hb : 1 ≤ p.binsPerOctave
    · exfalso
      obtain ⟨s1, h1⟩ := forLoop_ok_first _ _ _ _ _ (by omega) h
      obtain ⟨win, hmw, _⟩ := bind_ok _ _ _ h1
      exact hwin (makeWindow_ok_kind m _ _ win hmw).2
    · rw [forLoop_empty _ _ _ _ (by omega)] at h
      injection h with h
      rw [← h]

/-- The normalisation panics on a dense kernel without rows (`kernel.data[0]`). -/
theorem normalisationWeight_empty {R K : Type} [LinearOrderedField R] [FloorRing R]
    [CommRing K] [StarRing K] (m : MathFns R) (c : CmplxFns R K) (q : R)
    (p : Properties R) : normalisationWeight m c q p [] = .error .indexOutOfRange := by
  rfl

section ConstructionLemmas

variable {R K : Type} [LinearOrderedField R] [FloorRing R] [CommRing K] [StarRing K]
  [Algebra R K]

/-- The record returned by `geometry` carries the octave and bin counts of the
parameters. -/
theorem geometry_fields (m : MathFns R) (params : CQParams R) (p : Properties R)
    (h : geometry m params = .ok p) :
    p.octaves = params.Octaves ∧ p.binsPerOctave = params.BinsPerOctave := by
  unfold geometry at h
  simp only [] at h
  split at h
  · cases h
  · injection h with h
    rw [← h]
    exact ⟨rfl, rfl⟩

/-- The stages of a successful `NewCQKernel`. -/
theorem NewCQKernel_stages (m : MathFns R) (c : CmplxFns R K) (params : CQParams R)
    (k : CQKernel R K) (h : NewCQKernel m c params = .ok k) :
    ∃ p kernel weight sk, geometry m params = .ok p ∧
      denseKernel m c params p = .ok kernel ∧
      normalisationWeight m c params.q p kernel.data = .ok weight ∧
      sparsify c.abs weight kernel.data = .ok sk ∧ k = CQKernel.mk p sk := by
  unfold NewCQKernel at h
  obtain ⟨p, hp, h⟩ := bind_ok _ _ _ h
  obtain ⟨kernel, hk, h⟩ := bind_ok _ _ _ h
  obtain ⟨weight, hw, h⟩ := bind_ok _ _ _ h
  obtain ⟨sk, hsk, h⟩ := bind_ok _ _ _ h
  injection h with h
  exact ⟨p, kernel, weight, sk, hp, hk, hw, hsk, h.symm⟩

end ConstructionLemmas

section GeometryLemmas

variable {R : Type} [LinearOrderedField R] [FloorRing R]

/-- The geometry step written with the named locals `maxNK` and `minNK`. -/
theorem geometry_eq (m : MathFns R) (params : CQParams R) :
    geometry m params =
      if ((minNK m params : Int) : R) = 0 ∨ ((maxNK m params : Int) : R) = 0
      then .error .invalidGeometry
      else .ok (layout
        { sampleRate := params.sampleRate, minFrequency := kernelMinFrequency m params,
          octaves := params.Octaves, binsPerOctave := params.BinsPerOctave, fftSize := 0,
          fftHop := 0, atomsPerFrame := 0, atomSpacing := 0, firstCentre := 0,
          lastCentre := 0, Q := kernelQ m params }
        ((maxNK m params : Int) : R) ((minNK m params : Int) : R) params.atomHopFactor) := by
  rfl

/-- A successful geometry step passed the check and returns the layout of the
two atom lengths. -/
theorem geometry_ok (m : MathFns R) (params : CQParams R) (p : Properties R)
    (h : geometry m params = .ok p) :
    minNK m params ≠ 0 ∧ maxNK m params ≠ 0 ∧
      p = layout
        { sampleRate := params.sampleRate, minFrequency := kernelMinFrequency m params,
          octaves := params.Octaves, binsPerOctave := params.BinsPerOctave, fftSize := 0,
          fftHop := 0, atomsPerFrame := 0, atomSpacing := 0, firstCentre := 0,
          lastCentre := 0, Q := kernelQ m params }
        ((maxNK m params : Int) : R) ((minNK m params : Int) : R) params.atomHopFactor := by
  rw [geometry_eq] at h
  split at h
  · cases h
  · rename_i hne
    injection h with h
    refine ⟨?_, ?_, h.symm⟩
    · intro h0
      exact hne (Or.inl (by rw [h0]; simp))
    · intro h0
      exact hne (Or.inr (by rw [h0]; simp))

/-- The atom spacing is at least one for a positive minimum atom length and a
positive hop factor. -/
theorem layout_atomSpacing_pos (p : Properties R) (M N : Int) (a : R) (hN : 1 ≤ N)
    (ha : 0 < a) : 1 ≤ (layout p (M : R) (N : R) a).atomSpacing := by
  show 1 ≤ round ((N : R) * a + 1 / 2)
  unfold round
  rw [Int.le_floor]
  have h1 : (0 : R) < (N : R) := by exact_mod_cast (by omega : 0 < N)
  have h2 : 0 < (N : R) * a := mul_pos h1 ha
  push_cast
  linarith

/-- The first centre is the atom spacing times the ceiling of the quotient. -/
theorem layout_firstCentre (p : Properties R) (M N : Int) (a : R) :
    (layout p (M : R) (N : R) a).firstCentre =
      (layout p (M : R) (N : R) a).atomSpacing *
        ⌈((⌈(M : R) / 2⌉ : Int) : R) / ((layout p (M : R) (N : R) a).atomSpacing : R)⌉ := by
  rfl

/-- Rounding an integer up to a multiple of `A ≥ 1`. -/
theorem ceil_multiple (A c : Int) (hA : 1 ≤ A) :
    c ≤ A * ⌈(c : R) / (A : R)⌉ ∧ A * ⌈(c : R) / (A : R)⌉ - A < c ∧
      ∀ s : Int, c ≤ A * s → A * ⌈(c : R) / (A : R)⌉ ≤ A * s := by
  have hApos : (0 : R) < (A : R) := by exact_mod_cast (by omega : 0 < A)
  refine ⟨?_, ?_, ?_⟩
  · have h := Int.le_ceil ((c : R) / (A : R))
    rw [div_le_iff₀ hApos] at h
    have h2 : (c : R) ≤ ((A * ⌈(c : R) / (A : R)⌉ : Int) : R) := by
      push_cast; linarith
    exact_mod_cast h2
  · have h := Int.ceil_lt_add_one ((c : R) / (A : R))
    have h3 : ((⌈(c : R) / (A : R)⌉ : Int) : R) - 1 < (c : R) / (A : R) := by linarith
    rw [lt_div_iff₀ hApos] at h3
    have h2 : ((A * ⌈(c : R) / (A : R)⌉ - A : Int) : R) < (c : R) := by
      push_cast; linarith
    exact_mod_cast h2
  · intro s hs
    have h1 : (c : R) / (A : R) ≤ (s : R) := by
      rw [div_le_iff₀ hApos]
      have : (c : R) ≤ ((A * s : Int) : R) := by exact_mod_cast hs
      push_cast at this
      linarith
    have h2 : ⌈(c : R) / (A : R)⌉ ≤ s := Int.ceil_le.2 h1
    exact Int.mul_le_mul_of_nonneg_left h2 (by omega)

/-- The value of `nextPowerOf2` is the least power of two at least its argument. -/
theorem nextPowerOf2_spec (n : Int) :
    (∃ k : Nat, nextPowerOf2 n = 2 ^ k) ∧ n ≤ nextPowerOf2 n ∧
      ∀ k : Nat, n ≤ 2 ^ k → nextPowerOf2 n ≤ 2 ^ k := by
  unfold nextPowerOf2
  refine ⟨⟨Nat.clog 2 n.toNat, by push_cast; rfl⟩, ?_, ?_⟩
  · have h := Nat.le_pow_clog (by decide : 1 < 2) n.toNat
    have h2 : (n.toNat : Int) ≤ ((2 ^ Nat.clog 2 n.toNat : Nat) : Int) := by exact_mod_cast h
    omega
  · intro k hk
    have h1 : n.toNat ≤ 2 ^ k := by
      have hpos : (0 : Int) < 2 ^ k := by positivity
      have : (n.toNat : Int) ≤ 2 ^ k := by omega
      exact_mod_cast this
    have h2 : Nat.clog 2 n.toNat ≤ k := (Nat.le_pow_iff_clog_le (by decide)).1 h1
    have h3 : 2 ^ Nat.clog 2 n.toNat ≤ 2 ^ k := Nat.pow_le_pow_right (by decide) h2
    exact_mod_cast h3

/-- The FFT size is `nextPowerOf2` of the first centre plus half the maximum
atom length. -/
theorem layout_fftSize (p : Properties R) (M N : Int) (a : R) :
    (layout p (M : R) (N : R) a).fftSize =
      nextPowerOf2 ((layout p (M : R) (N : R) a).firstCentre + ⌈(M : R) / 2⌉) := by
  rfl

/-- The number of atoms per frame of the layout. -/
theorem layout_atomsPerFrame (p : Properties R) (M N : Int) (a : R) :
    (layout p (M : R) (N : R) a).atomsPerFrame =
      ⌊1 + (((layout p (M : R) (N : R) a).fftSize : R) - ((⌈(M : R) / 2⌉ : Int) : R) -
        ((layout p (M : R) (N : R) a).firstCentre : R)) /
          ((layout p (M : R) (N : R) a).atomSpacing : R)⌋ := by
  rfl

/-- With atom spacing `A ≥ 1` and `fc + c ≤ F`, the atom count
`⌊1 + (F - c - fc)/A⌋` is at least one and the last atom centre stays `c`
below `F`. -/
theorem atoms_fit (A F c fc : Int) (hA : 1 ≤ A) (hF : fc + c ≤ F) :
    1 ≤ ⌊1 + ((F : R) - (c : R) - (fc : R)) / (A : R)⌋ ∧
      fc + (⌊1 + ((F : R) - (c : R) - (fc : R)) / (A : R)⌋ - 1) * A ≤ F - c := by
  have hApos : (0 : R) < (A : R) := by exact_mod_cast (by omega : 0 < A)
  have hnum : (0 : R) ≤ (F : R) - (c : R) - (fc : R) := by
    have : ((fc + c : Int) : R) ≤ (F : R) := by exact_mod_cast hF
    push_cast at this
    linarith
  constructor
  · rw [Int.le_floor]
    have := div_nonneg hnum hApos.le
    push_cast
    linarith
  · have h := Int.floor_le (1 + ((F : R) - (c : R) - (fc : R)) / (A : R))
    have h2 : ((⌊1 + ((F : R) - (c : R) - (fc : R)) / (A : R)⌋ : Int) : R) - 1 ≤
        ((F : R) - (c : R) - (fc : R)) / (A : R) := by linarith
    rw [le_div_iff₀ hApos] at h2
    have h3 : ((fc + (⌊1 + ((F : R) - (c : R) - (fc : R)) / (A : R)⌋ - 1) * A : Int) : R) ≤
        ((F - c : Int) : R) := by
      push_cast
      linarith
    exact_mod_cast h3

/-- Half of an integer, rounded up. -/
theorem ceil_half (n : Int) : n ≤ 2 * ⌈(n : R) / 2⌉ ∧ 2 * ⌈(n : R) / 2⌉ ≤ n + 1 := by
  constructor
  · have h := Int.le_ceil ((n : R) / 2)
    have h2 : (n : R) ≤ ((2 * ⌈(n : R) / 2⌉ : Int) : R) := by
      push_cast; linarith
    exact_mod_cast h2
  · have h := Int.ceil_lt_add_one ((n : R) / 2)
    have h2 : ((2 * ⌈(n : R) / 2⌉ : Int) : R) < ((n + 2 : Int) : R) := by
      push_cast; linarith
    have h3 : 2 * ⌈(n : R) / 2⌉ < n + 2 := by exact_mod_cast h2
    omega

/-- The fields of a successful geometry: atom spacing at least one, first centre
the least multiple of the spacing at least `⌈maxNK/2⌉`, FFT size the least
power of two at least `firstCentre + ⌈maxNK/2⌉`, atoms per frame at least one
with the last centre `⌈maxNK/2⌉` below the FFT size. -/
theorem geometry_facts (m : MathFns R) (params : CQParams R) (p : Properties R)
    (h : geometry m params = .ok p) :
    ((∃ k : Nat, p.fftSize = 2 ^ k) ∧
      p.firstCentre + ⌈((maxNK m params : Int) : R) / 2⌉ ≤ p.fftSize ∧
      ∀ k : Nat, p.firstCentre + ⌈((maxNK m params : Int) : R) / 2⌉ ≤ 2 ^ k →
        p.fftSize ≤ 2 ^ k) ∧
    (1 ≤ minNK m params → 0 < params.atomHopFactor →
      1 ≤ p.atomSpacing ∧
      (∃ s : Int, p.firstCentre = p.atomSpacing * s) ∧
      ⌈((maxNK m params : Int) : R) / 2⌉ ≤ p.firstCentre ∧
      p.firstCentre - p.atomSpacing < ⌈((maxNK m params : Int) : R) / 2⌉ ∧
      (∀ s : Int, ⌈((maxNK m params : Int) : R) / 2⌉ ≤ p.atomSpacing * s →
        p.firstCentre ≤ p.atomSpacing * s) ∧
      1 ≤ p.atomsPerFrame ∧
      p.firstCentre + (p.atomsPerFrame - 1) * p.atomSpacing ≤
        p.fftSize - ⌈((maxNK m params : Int) : R) / 2⌉) := by
  obtain ⟨_, _, hp⟩ := geometry_ok m params p h
  have hfft : p.fftSize =
      nextPowerOf2 (p.firstCentre + ⌈((maxNK m params : Int) : R) / 2⌉) := by
    rw [hp]; rfl
  have hfc : p.firstCentre = p.atomSpacing *
      ⌈((⌈((maxNK m params : Int) : R) / 2⌉ : Int) : R) / (p.atomSpacing : R)⌉ := by
    rw [hp]; rfl
  have hapf : p.atomsPerFrame =
      ⌊1 + ((p.fftSize : R) - ((⌈((maxNK m params : Int) : R) / 2⌉ : Int) : R) -
        (p.firstCentre : R)) / (p.atomSpacing : R)⌋ := by
    rw [hp]; rfl
  obtain ⟨hpow, hge, hleast⟩ :=
    nextPowerOf2_spec (p.firstCentre + ⌈((maxNK m params : Int) : R) / 2⌉)
  rw [← hfft] at hpow hge hleast
  refine ⟨⟨hpow, hge, hleast⟩, ?_⟩
  intro hmin hpos
  have hA : 1 ≤ p.atomSpacing := by
    rw [hp]
    exact layout_atomSpacing_pos _ _ _ _ hmin hpos
  obtain ⟨h1, h2, h3⟩ :=
    ceil_multiple (R := R) p.atomSpacing ⌈((maxNK m params : Int) : R) / 2⌉ hA
  rw [← hfc] at h1 h2
  obtain ⟨h4, h5⟩ := atoms_fit (R := R) p.atomSpacing p.fftSize
    ⌈((maxNK m params : Int) : R) / 2⌉ p.firstCentre hA hge
  rw [← hapf] at h4 h5
  refine ⟨hA, ⟨_, hfc⟩, h1, h2, ?_, h4, h5⟩
  intro s hs
  rw [hfc]
  exact h3 s hs

/-- Under `math.Pow(2, x) ≥ 1` for `x ≥ 0`, the atom length of every bin lies
between zero and the maximum atom length. -/
theorem atomLength_le_maxNK (m : MathFns R) (params : CQParams R) (p : Properties R)
    (h : geometry m params = .ok p) (hmax : 1 ≤ maxNK m params)
    (hpow : ∀ x : R, 0 ≤ x → 1 ≤ m.pow 2 x) (k : Int) (hk1 : 1 ≤ k)
    (hk2 : k ≤ p.binsPerOctave) :
    0 ≤ atomLength m params p k ∧ atomLength m params p k ≤ maxNK m params := by
  obtain ⟨_, _, hp⟩ := geometry_ok m params p h
  have hb : p.binsPerOctave = params.BinsPerOctave := by rw [hp]; rfl
  have hlen : atomLength m params p k =
      ⌊kernelQ m params * params.sampleRate /
        (kernelMinFrequency m params *
          m.pow 2 (((k : R) - 1) / (params.BinsPerOctave : R))) + 1 / 2⌋ := by
    rw [hp]; rfl
  have hY : (1 : R) / 2 ≤ kernelQ m params * params.sampleRate / kernelMinFrequency m params := by
    have h1 : ((1 : Int) : R) ≤
        kernelQ m params * params.sampleRate / kernelMinFrequency m params + 1 / 2 :=
      Int.le_floor.1 hmax
    push_cast at h1
    linarith
  have hx : (0 : R) ≤ ((k : R) - 1) / (params.BinsPerOctave : R) := by
    apply div_nonneg
    · have : ((1 : Int) : R) ≤ (k : R) := by exact_mod_cast hk1
      push_cast at this
      linarith
    · have : ((0 : Int) : R) ≤ (params.BinsPerOctave : R) := by
        exact_mod_cast (by omega : (0 : Int) ≤ params.BinsPerOctave)
      simpa using this
  have hP := hpow _ hx
  have hPpos : (0 : R) < m.pow 2 (((k : R) - 1) / (params.BinsPerOctave : R)) := by linarith
  have hYpos : (0 : R) ≤
      kernelQ m params * params.sampleRate / kernelMinFrequency m params := by linarith
  have hle : kernelQ m params * params.sampleRate /
      (kernelMinFrequency m params * m.pow 2 (((k : R) - 1) / (params.BinsPerOctave : R))) ≤
      kernelQ m params * params.sampleRate / kernelMinFrequency m params := by
    rw [div_mul_eq_div_div]
    exact div_le_self hYpos hP
  have hnn : (0 : R) ≤ kernelQ m params * params.sampleRate /
      (kernelMinFrequency m params * m.pow 2 (((k : R) - 1) / (params.BinsPerOctave : R))) := by
    rw [div_mul_eq_div_div]
    exact div_nonneg hYpos hPpos.le
  rw [hlen]
  constructor
  · rw [Int.le_floor]
    push_cast
    linarith
  · unfold maxNK
    apply Int.floor_mono
    linarith

/-- Every atom of every bin is placed inside the FFT buffer. -/
theorem placement_facts (m : MathFns R) (params : CQParams R) (p : Properties R)
    (h : geometry m params = .ok p) (hmin : 1 ≤ minNK m params) (hmax : 1 ≤ maxNK m params)
    (hpos : 0 < params.atomHopFactor) (hpow : ∀ x : R, 0 ≤ x → 1 ≤ m.pow 2 x)
    (k : Int) (hk1 : 1 ≤ k) (hk2 : k ≤ p.binsPerOctave) (i : Int) (hi0 : 0 ≤ i)
    (hi1 : i < p.atomsPerFrame) :
    0 ≤ p.firstCentre - roundUp ((atomLength m params p k : R) / 2) + i * p.atomSpacing ∧
      p.firstCentre - roundUp ((atomLength m params p k : R) / 2) + i * p.atomSpacing +
        atomLength m params p k ≤ p.fftSize := by
  obtain ⟨⟨_, hge, _⟩, hrest⟩ := geometry_facts m params p h
  obtain ⟨hA, _, hc, _, _, _, hlast⟩ := hrest hmin hpos
  obtain ⟨hn0, hn1⟩ := atomLength_le_maxNK m params p h hmax hpow k hk1 hk2
  obtain ⟨a1, a2⟩ := ceil_half (R := R) (atomLength m params p k)
  obtain ⟨b1, b2⟩ := ceil_half (R := R) (maxNK m params)
  have hiA : 0 ≤ i * p.atomSpacing := mul_nonneg hi0 (by omega)
  have hiB : i * p.atomSpacing ≤ (p.atomsPerFrame - 1) * p.atomSpacing :=
    mul_le_mul_of_nonneg_right (by omega) (by omega)
  unfold roundUp
  constructor
  · linarith
  · linarith

/-- The derived quantities of `degenerateParams` when `math.Pow(2, 1) = 2` and
`math.Pow(2, 0) = 1`: effective minimum frequency `40000`, `Q = 1`, both atom
lengths `1`. -/
theorem degenerate_values (m : MathFns R) (h1 : m.pow 2 1 = 2) (h0 : m.pow 2 0 = 1)
    (a t : R) :
    kernelMinFrequency m (degenerateParams a t) = 40000 ∧
      kernelQ m (degenerateParams a t) = 1 ∧
      maxNK m (degenerateParams a t) = 1 ∧ minNK m (degenerateParams a t) = 1 := by
  have hf : kernelMinFrequency m (degenerateParams a t) = 40000 := by
    unfold kernelMinFrequency degenerateParams
    norm_num [h1]
  have hq : kernelQ m (degenerateParams a t) = 1 := by
    unfold kernelQ degenerateParams
    norm_num [h1]
  refine ⟨hf, hq, ?_, ?_⟩
  · unfold maxNK
    rw [hf, hq]
    simp only [degenerateParams]
    rw [Int.floor_eq_iff]
    constructor <;> norm_num
  · unfold minNK
    rw [hf, hq]
    simp only [degenerateParams]
    rw [Int.floor_eq_iff]
    norm_num [h0]

/-- The geometry step succeeds on `degenerateParams`. -/
theorem degenerate_geometry (m : MathFns R) (h1 : m.pow 2 1 = 2) (h0 : m.pow 2 0 = 1)
    (a t : R) : ∃ p, geometry m (degenerateParams a t) = .ok p := by
  obtain ⟨_, _, hmax, hmin⟩ := degenerate_values m h1 h0 a t
  rw [geometry_eq, hmax, hmin, if_neg (by norm_num)]
  exact ⟨_, rfl⟩

end GeometryLemmas

section DegenerateLemmas

variable {R K : Type} [LinearOrderedField R] [FloorRing R] [CommRing K] [StarRing K]
  [Algebra R K]

/-- When the window of the first bin panics, so does the dense kernel. -/
theorem denseKernel_first_window_error {R K : Type} [LinearOrderedField R] [FloorRing R]
    [CommRing K] [Algebra R K] (m : MathFns R) (c : CmplxFns R K) (params : CQParams R)
    (p : Properties R) (e : CQError) (hb : 1 ≤ p.binsPerOctave)
    (hsize : ¬ p.binsPerOctave * p.atomsPerFrame < 0)
    (hwin : makeWindow m params.window (atomLength m params p 1) = .error e) :
    denseKernel m c params p = .error e := by
  unfold denseKernel
  simp only []
  rw [if_neg hsize]
  apply forLoop_first_error _ _ _ _ _ (by omega)
  show (makeWindow m params.window (atomLength m params p 1) >>= _) = _
  rw [hwin]
  rfl

/-- On `degenerateParams` the construction passes the geometry check and panics
later, in `make` or on a slice index. -/
theorem degenerate_construction (m : MathFns R) (c : CmplxFns R K) (h1 : m.pow 2 1 = 2)
    (h0 : m.pow 2 0 = 1) (a t : R) :
    NewCQKernel m c (degenerateParams a t) = .error .makesliceOutOfRange ∨
      NewCQKernel m c (degenerateParams a t) = .error .indexOutOfRange := by
  obtain ⟨p, hp⟩ := degenerate_geometry m h1 h0 a t
  obtain ⟨hf, hq, hmax, hmin⟩ := degenerate_values m h1 h0 a t
  obtain ⟨_, _, hlay⟩ := geometry_ok m (degenerateParams a t) p hp
  have hb : p.binsPerOctave = 1 := by rw [hlay]; rfl
  have hlen : atomLength m (degenerateParams a t) p 1 = 1 := by
    have e1 : atomLength m (degenerateParams a t) p 1 =
        ⌊kernelQ m (degenerateParams a t) * (degenerateParams a t).sampleRate /
          (kernelMinFrequency m (degenerateParams a t) *
            m.pow 2 ((((1 : Int) : R) - 1) / ((degenerateParams a t).BinsPerOctave : R))) +
          1 / 2⌋ := by
      rw [hlay]; rfl
    rw [e1, hf, hq]
    simp only [degenerateParams]
    rw [Int.floor_eq_iff]
    norm_num [h0]
  unfold NewCQKernel
  rw [hp]
  show (denseKernel m c (degenerateParams a t) p >>= _) = _ ∨
    (denseKernel m c (degenerateParams a t) p >>= _) = _
  by_cases hsize : p.binsPerOctave * p.atomsPerFrame < 0
  · left
    unfold denseKernel
    simp only []
    rw [if_pos hsize]
    rfl
  · right
    rw [denseKernel_first_window_error m c _ p .indexOutOfRange (by omega) hsize
      (by rw [hlen]; rfl)]
    rfl

end DegenerateLemmas

section RealWindowLemmas

/-- Over the reals the window of length three is
`[√0.00006 / 3, 1/3, √0.00006 / 3]`. -/
theorem real_window_three :
    ∃ win, makeWindow (MathFns.mk (fun x y : ℝ => x ^ y) Real.cos Real.sqrt Real.pi)
        Window.SqrtBlackmanHarris 3 = .ok win ∧
      win.getD 0 0 = Real.sqrt (6 / 100000) / 3 ∧ win.getD 1 0 = 1 / 3 ∧
      win.getD 2 0 = win.getD 0 0 := by
  obtain ⟨win, hrun, _, hval, hlast⟩ := makeWindow_ok
    (MathFns.mk (fun x y : ℝ => x ^ y) Real.cos Real.sqrt Real.pi) 3 (by decide)
  refine ⟨win, hrun, ?_, ?_, hlast⟩
  · rw [hval 0 (by decide)]
    norm_num
  · rw [hval 1 (by decide)]
    have e1 : (2 * Real.pi * ((1 : ℕ) : ℤ) / ((3 - 1 : ℤ) : ℝ)) = Real.pi := by
      push_cast; ring
    have e2 : (4 * Real.pi * ((1 : ℕ) : ℤ) / ((3 - 1 : ℤ) : ℝ)) = 2 * Real.pi := by
      push_cast; ring
    have e3 : (6 * Real.pi * ((1 : ℕ) : ℤ) / ((3 - 1 : ℤ) : ℝ)) = Real.pi + 2 * Real.pi := by
      push_cast; ring
    simp only [e1, e2, e3, Real.cos_pi, Real.cos_two_pi, Real.cos_add_two_pi]
    norm_num

end RealWindowLemmas

section WindowSymmetryLemmas

variable {R : Type} [LinearOrderedField R]

/-- A window is returned only for a length of at least two. -/
theorem makeWindow_two_le (m : MathFns R) (window : Window) (len : Int) (win : List R)
    (h : makeWindow m window len = .ok win) : 2 ≤ len := by
  obtain ⟨hpos, hkind⟩ := makeWindow_ok_kind m window len win h
  by_contra hlt
  have h1 : len = 1 := by omega
  subst h1
  subst hkind
  have h2 : makeWindow m Window.SqrtBlackmanHarris 1 = .error .indexOutOfRange := rfl
  rw [h2] at h
  cases h

/-- For an even cosine of period `2π`, the cosine terms of the window at `n - x`
and at `x` agree. -/
theorem cos_term_symm (m : MathFns R) (hper : ∀ x, m.cos (x + 2 * m.pi) = m.cos x)
    (heven : ∀ x, m.cos (-x) = m.cos x) (n x : R) (hn : n ≠ 0) :
    m.cos (2 * m.pi * (n - x) / n) = m.cos (2 * m.pi * x / n) ∧
      m.cos (4 * m.pi * (n - x) / n) = m.cos (4 * m.pi * x / n) ∧
      m.cos (6 * m.pi * (n - x) / n) = m.cos (6 * m.pi * x / n) := by
  refine ⟨?_, ?_, ?_⟩
  · have e : 2 * m.pi * (n - x) / n = -(2 * m.pi * x / n) + 2 * m.pi := by
      field_simp; ring
    rw [e, hper, heven]
  · have e : 4 * m.pi * (n - x) / n = -(4 * m.pi * x / n) + 2 * m.pi + 2 * m.pi := by
      field_simp; ring
    rw [e, hper, hper, heven]
  · have e : 6 * m.pi * (n - x) / n =
        -(6 * m.pi * x / n) + 2 * m.pi + 2 * m.pi + 2 * m.pi := by
      field_simp; ring
    rw [e, hper, hper, hper, heven]

end WindowSymmetryLemmas

section LoopInversion

variable {α σ : Type}

theorem index_of_ok (l : List α) (z : Int) (a d : α) (h : index l z = .ok a) :
    0 ≤ z ∧ z < (l.length : Int) ∧ a = l.getD z.toNat d := by
  unfold index at h
  split at h
  · cases h
  · rename_i hz
    split at h
    · rename_i b hb
      injection h with h
      subst h
      have hlt : z.toNat < l.length := by
        by_contra hge
        rw [List.getElem?_eq_none (by omega)] at hb
        cases hb
      refine ⟨by omega, by omega, ?_⟩
      rw [List.getD_eq_getElem?_getD, hb]
      rfl
    · cases h

theorem assign_of_ok (l l2 : List α) (z : Int) (a : α) (h : assign l z a = .ok l2) :
    0 ≤ z ∧ z < (l.length : Int) ∧ l2 = l.set z.toNat a := by
  unfold assign at h
  split at h
  · rename_i hz
    injection h with h
    exact ⟨hz.1, hz.2, h.symm⟩
  · cases h

theorem make_of_ok (n : Int) (a : α) (l : List α) (h : make n a = .ok l) :
    0 ≤ n ∧ l = List.replicate n.toNat a := by
  unfold make at h
  split at h
  · cases h
  · injection h with h
    exact ⟨by omega, h.symm⟩

theorem foldlM_range_of_ok (n : Nat) (init : σ) (f : σ → Nat → Result σ)
    (Inv : Nat → σ → Prop) (h0 : Inv 0 init)
    (hstep : ∀ (t : Nat) (s s2 : σ), t < n → Inv t s → f s t = .ok s2 → Inv (t + 1) s2) :
    ∀ m, m ≤ n → ∀ s, (List.range m).foldlM f init = .ok s → Inv m s := by
  intro m
  induction m with
  | zero =>
    intro _ s hs
    injection hs with hs
    rw [← hs]
    exact h0
  | succ m ih =>
    intro hm s hs
    rw [List.range_succ, List.foldlM_append] at hs
    obtain ⟨s1, h1, h2⟩ := bind_ok _ _ _ hs
    simp only [List.foldlM_cons, List.foldlM_nil] at h2
    obtain ⟨s2, h3, h4⟩ := bind_ok _ _ _ h2
    injection h4 with h4
    subst h4
    exact hstep m s1 s2 (by omega) (ih (by omega) s1 h1) h3

/-- Partial-correctness rule for a counted loop that returned: an invariant
preserved by every returning iteration holds of the final state. -/
theorem forLoop_of_ok (lo hi : Int) (init s : σ) (body : σ → Int → Result σ)
    (Inv : Nat → σ → Prop) (h : forLoop lo hi init body = .ok s) (h0 : Inv 0 init)
    (hstep : ∀ (t : Nat) (st st2 : σ), t < (hi - lo).toNat → Inv t st →
      body st (lo + (t : Int)) = .ok st2 → Inv (t + 1) st2) :
    Inv (hi - lo).toNat s := by
  unfold forLoop at h
  exact foldlM_range_of_ok (hi - lo).toNat init (fun st (t : Nat) => body st (lo + (t : Int)))
    Inv h0 hstep (hi - lo).toNat (le_refl _) s h

end LoopInversion

section SparsifyInversion

variable {R K : Type} [LinearOrderedCommRing R] [CommRing K] [StarRing K] [Algebra R K]

/-- A sparsifier that returned filled slot `i` of the sparse kernel from dense
row `i`. -/
theorem sparsify_of_ok (cabs : K → R) (w : R) (dense : List (List K)) (sk : Kernel K)
    (h : sparsify cabs w dense = .ok sk) :
    sk.origin.length = dense.length ∧ sk.data.length = dense.length ∧
      ∀ i, i < dense.length →
        sparsifyRow cabs w (dense.getD i []) = .ok (sk.origin.getD i 0, sk.data.getD i []) := by
  unfold sparsify at h
  obtain ⟨o0, ho0, h⟩ := bind_ok _ _ _ h
  obtain ⟨d0, hd0, h⟩ := bind_ok _ _ _ h
  obtain ⟨_, ho0⟩ := make_of_ok _ _ _ ho0
  obtain ⟨_, hd0⟩ := make_of_ok _ _ _ hd0
  have hinv := forLoop_of_ok 0 (dense.length : Int) (Kernel.mk o0 d0) sk _
    (fun t st => st.origin.length = dense.length ∧ st.data.length = dense.length ∧
      ∀ i, i < t →
        sparsifyRow cabs w (dense.getD i []) = .ok (st.origin.getD i 0, st.data.getD i []))
    h
    ⟨by rw [ho0]; simp, by rw [hd0]; simp, fun i hi => absurd hi (Nat.not_lt_zero i)⟩
    (by
      intro t st st2 ht ⟨hol, hdl, hdone⟩ hbody
      obtain ⟨row, hrow, hbody⟩ := bind_ok _ _ _ hbody
      obtain ⟨r, hr, hbody⟩ := bind_ok _ _ _ hbody
      obtain ⟨o2, ho2, hbody⟩ := bind_ok _ _ _ hbody
      obtain ⟨d2, hd2, hbody⟩ := bind_ok _ _ _ hbody
      injection hbody with hbody
      subst hbody
      obtain ⟨_, _, hrow⟩ := index_of_ok _ _ _ [] hrow
      obtain ⟨_, _, ho2⟩ := assign_of_ok _ _ _ _ ho2
      obtain ⟨_, _, hd2⟩ := assign_of_ok _ _ _ _ hd2
      simp only [zero_add, Int.toNat_ofNat] at hrow ho2 hd2
      subst hrow ho2 hd2
      have ht2 : t < dense.length := by omega
      refine ⟨by simp [hol], by simp [hdl], ?_⟩
      intro i hi
      by_cases hit : i = t
      · subst hit
        rw [hr]
        simp [List.getD_eq_getElem?_getD, List.getElem?_set, hol, hdl, ht2]
      · rw [hdone i (by omega)]
        simp [List.getD_eq_getElem?_getD, List.getElem?_set, Ne.symm hit])
  simp only [sub_zero, Int.toNat_ofNat] at hinv
  exact hinv

end SparsifyInversion

section DenseInversion

variable {R K : Type} [LinearOrderedField R] [FloorRing R] [CommRing K] [Algebra R K]

/-- The dense kernel loop written with the atom of each bin. -/
theorem denseKernel_eq (m : MathFns R) (c : CmplxFns R K) (params : CQParams R)
    (p : Properties R) :
    denseKernel m c params p =
      if p.binsPerOctave * p.atomsPerFrame < 0 then .error .makesliceOutOfRange
      else forLoop 1 (p.binsPerOctave + 1) (Kernel.mk [] []) (fun kernel k =>
        binAtom m c params p k >>= fun cmplxs =>
          forLoop 0 p.atomsPerFrame kernel (fun kernel i =>
            atomRow c params.threshold p cmplxs (atomLength m params p k)
              (p.firstCentre - roundUp ((atomLength m params p k : R) / 2)) i >>= fun cout =>
            pure (Kernel.mk (kernel.origin ++ [0]) (kernel.data ++ [cout])))) := by
  unfold denseKernel binAtom atomLength
  simp only [bind_assoc]

/-- The rows appended for one bin by a returning atom loop. -/
theorem atom_rows_of_ok {R K : Type} [LinearOrderedField R] [CommRing K] [Algebra R K]
    (c : CmplxFns R K) (thresh : R) (p : Properties R) (cmplxs : List K)
    (nk off : Int) (kernel kernel2 : Kernel K)
    (h : forLoop 0 p.atomsPerFrame kernel (fun kernel i =>
        atomRow c thresh p cmplxs nk off i >>= fun cout =>
        pure (Kernel.mk (kernel.origin ++ [0]) (kernel.data ++ [cout]))) = .ok kernel2) :
    kernel2.data.length = kernel.data.length + p.atomsPerFrame.toNat ∧
      kernel2.origin.length = kernel.origin.length + p.atomsPerFrame.toNat ∧
      (∀ j, j < kernel.data.length → kernel2.data.getD j [] = kernel.data.getD j []) ∧
      ∀ i : Nat, i < p.atomsPerFrame.toNat →
        atomRow c thresh p cmplxs nk off (i : Int) =
          .ok (kernel2.data.getD (kernel.data.length + i) []) := by
  have hinv := forLoop_of_ok 0 p.atomsPerFrame kernel kernel2 _
    (fun t st => st.data.length = kernel.data.length + t ∧
      st.origin.length = kernel.origin.length + t ∧
      (∀ j, j < kernel.data.length → st.data.getD j [] = kernel.data.getD j []) ∧
      ∀ i : Nat, i < t →
        atomRow c thresh p cmplxs nk off (i : Int) =
          .ok (st.data.getD (kernel.data.length + i) []))
    h ⟨rfl, rfl, fun _ _ => rfl, fun i hi => absurd hi (Nat.not_lt_zero i)⟩
    (by
      intro t st st2 _ ⟨hdl, hol, hold, hdone⟩ hbody
      obtain ⟨cout, hcout, hbody⟩ := bind_ok _ _ _ hbody
      injection hbody with hbody
      subst hbody
      simp only [zero_add] at hcout
      refine ⟨by simp [hdl]; omega, by simp [hol]; omega, ?_, ?_⟩
      · intro j hj
        rw [List.getD_append _ _ _ _ (by omega)]
        exact hold j hj
      · intro i hi
        by_cases hit : i = t
        · subst hit
          rw [hcout, ← hdl, List.getD_append_right _ _ _ _ (le_refl _)]
          simp
        · rw [List.getD_append _ _ _ _ (by omega)]
          exact hdone i (by omega))
  simp only [sub_zero] at hinv
  exact hinv

/-- The rows of a returned dense kernel: bin `k + 1` and atom `i` sit at index
`k * atomsPerFrame + i`. -/
theorem denseKernel_of_ok (m : MathFns R) (c : CmplxFns R K) (params : CQParams R)
    (p : Properties R) (kernel : Kernel K) (h : denseKernel m c params p = .ok kernel) :
    kernel.data.length = p.binsPerOctave.toNat * p.atomsPerFrame.toNat ∧
      kernel.origin.length = p.binsPerOctave.toNat * p.atomsPerFrame.toNat ∧
      ∀ k i : Nat, k < p.binsPerOctave.toNat → i < p.atomsPerFrame.toNat →
        denseRow m c params p (1 + (k : Int)) (i : Int) =
          .ok (kernel.data.getD (k * p.atomsPerFrame.toNat + i) []) := by
  rw [denseKernel_eq] at h
  split at h
  · cases h
  have hinv := forLoop_of_ok 1 (p.binsPerOctave + 1) (Kernel.mk [] []) kernel _
    (fun t st => st.data.length = t * p.atomsPerFrame.toNat ∧
      st.origin.length = t * p.atomsPerFrame.toNat ∧
      ∀ k i : Nat, k < t → i < p.atomsPerFrame.toNat →
        denseRow m c params p (1 + (k : Int)) (i : Int) =
          .ok (st.data.getD (k * p.atomsPerFrame.toNat + i) []))
    h ⟨by simp, by simp, fun k _ hk => absurd hk (Nat.not_lt_zero k)⟩
    (by
      intro t st st2 _ ⟨hdl, hol, hdone⟩ hbody
      obtain ⟨cmplxs, hbin, hbody⟩ := bind_ok _ _ _ hbody
      obtain ⟨h1, h2, h3, h4⟩ := atom_rows_of_ok c params.threshold p cmplxs _ _ st st2 hbody
      refine ⟨by rw [h1, hdl]; ring, by rw [h2, hol]; ring, ?_⟩
      intro k i hk hi
      by_cases hkt : k = t
      · subst hkt
        unfold denseRow
        rw [hbin]
        show atomRow _ _ _ _ _ _ _ = _
        rw [h4 i hi, hdl]
      · have hklt : k < t := by omega
        have hidx : k * p.atomsPerFrame.toNat + i < st.data.length := by
          rw [hdl]
          calc k * p.atomsPerFrame.toNat + i < k * p.atomsPerFrame.toNat + p.atomsPerFrame.toNat := by
                omega
            _ = (k + 1) * p.atomsPerFrame.toNat := by ring
            _ ≤ t * p.atomsPerFrame.toNat := Nat.mul_le_mul_right _ (by omega)
        rw [h3 _ hidx]
        exact hdone k i hklt hi)
  have hn : (p.binsPerOctave + 1 - 1).toNat = p.binsPerOctave.toNat := by
    congr 1
    omega
  rw [hn] at hinv
  exact hinv

end DenseInversion

section AtomInversion

variable {R K : Type} [LinearOrderedField R] [CommRing K] [Algebra R K]

/-- A returned dense row is the thresholded transform of a buffer of `fftSize`
values that holds the atom at `atomOffset + i * atomSpacing` and zero elsewhere. -/
theorem atomRow_of_ok (c : CmplxFns R K) (thresh : R) (p : Properties R) (cmplxs : List K)
    (nk off i : Int) (cout : List K) (h : atomRow c thresh p cmplxs nk off i = .ok cout) :
    ∃ cin : List K, cin.length = p.fftSize.toNat ∧
      (∀ j : Nat, (j : Int) < nk →
        0 ≤ (j : Int) + (off + i * p.atomSpacing) ∧
        (j : Int) + (off + i * p.atomSpacing) < p.fftSize ∧
        cin.getD ((j : Int) + (off + i * p.atomSpacing)).toNat 0 = cmplxs.getD j 0) ∧
      (∀ pos : Nat, ((pos : Int) < off + i * p.atomSpacing ∨
          off + i * p.atomSpacing + nk ≤ (pos : Int)) → cin.getD pos 0 = 0) ∧
      thresholdRow c.abs thresh p.fftSize (c.fft cin) = .ok cout := by
  unfold atomRow at h
  obtain ⟨cin0, hcin0, h⟩ := bind_ok _ _ _ h
  obtain ⟨cin, hcin, h⟩ := bind_ok _ _ _ h
  obtain ⟨hfft, hcin0⟩ := make_of_ok _ _ _ hcin0
  have hinv := forLoop_of_ok 0 nk cin0 cin _
    (fun t st => st.length = p.fftSize.toNat ∧
      (∀ j : Nat, j < t →
        0 ≤ (j : Int) + (off + i * p.atomSpacing) ∧
        (j : Int) + (off + i * p.atomSpacing) < p.fftSize ∧
        st.getD ((j : Int) + (off + i * p.atomSpacing)).toNat 0 = cmplxs.getD j 0) ∧
      ∀ pos : Nat, ((pos : Int) < off + i * p.atomSpacing ∨
          off + i * p.atomSpacing + (t : Int) ≤ (pos : Int)) → st.getD pos 0 = 0)
    hcin
    ⟨by rw [hcin0]; simp, fun j hj => absurd hj (Nat.not_lt_zero j), by
      intro pos _
      rw [hcin0, List.getD_eq_getElem?_getD]
      by_cases hp : pos < p.fftSize.toNat
      · simp [List.getElem?_replicate, hp]
      · simp [List.getElem?_replicate, hp]⟩
    (by
      intro t st st2 _ ⟨hl, hdone, hzero⟩ hbody
      obtain ⟨v, hv, hbody⟩ := bind_ok _ _ _ hbody
      obtain ⟨_, _, hv⟩ := index_of_ok _ _ _ 0 hv
      obtain ⟨ha0, ha1, hst2⟩ := assign_of_ok _ _ _ _ hbody
      simp only [zero_add, Int.toNat_ofNat] at hv ha0 ha1 hst2
      subst hv hst2
      refine ⟨by simp [hl], ?_, ?_⟩
      · intro j hj
        by_cases hjt : j = t
        · subst hjt
          refine ⟨ha0, by omega, ?_⟩
          have hlt : ((j : Int) + (off + i * p.atomSpacing)).toNat < st.length := by omega
          simp [List.getD_eq_getElem?_getD, List.getElem?_set, hlt]
        · obtain ⟨h1, h2, h3⟩ := hdone j (by omega)
          refine ⟨h1, h2, ?_⟩
          rw [← h3]
          have hne : ((t : Int) + (off + i * p.atomSpacing)).toNat ≠
              ((j : Int) + (off + i * p.atomSpacing)).toNat := by omega
          simp [List.getD_eq_getElem?_getD, List.getElem?_set, hne]
      · intro pos hpos
        have h0 := hzero pos (by omega)
        have hne : ((t : Int) + (off + i * p.atomSpacing)).toNat ≠ pos := by omega
        simpa [List.getD_eq_getElem?_getD, List.getElem?_set, hne] using h0)
  obtain ⟨hl, hdone, hzero⟩ := hinv
  refine ⟨cin, hl, ?_, ?_, h⟩
  · intro j hj
    exact hdone j (by omega)
  · intro pos hpos
    exact hzero pos (by omega)

end AtomInversion

section WorkingSetLemmas

variable {R K : Type} [LinearOrderedField R] [FloorRing R] [CommRing K]

/-- For a positive `q` the Go conversion `int(1.0/q + 0.5)` is the floor. -/
theorem truncate_inv_q (q : R) (hq : 0 < q) :
    truncate (1 / q + 1 / 2) = ⌊1 / q + 1 / 2⌋ ∧ 0 ≤ ⌊1 / q + 1 / 2⌋ := by
  have hpos : (0 : R) ≤ 1 / q + 1 / 2 := by
    have : 0 < 1 / q := one_div_pos.2 hq
    linarith
  constructor
  · unfold truncate
    rw [if_pos hpos]
  · exact Int.floor_nonneg.2 hpos

end WorkingSetLemmas

section AdjointLemmas

variable {R K : Type} [CommRing K] [StarRing K]

/-- A sum over the columns covered by a row, re-indexed by the offset in the row. -/
theorem sum_window {M : Type} [AddCommMonoid M] (o : Int) (len N : Nat) (ho : 0 ≤ o)
    (hN : o + (len : Int) ≤ (N : Int)) (f : Nat → M) :
    (∑ c in Finset.range N, if o ≤ (c : Int) ∧ (c : Int) < o + (len : Int) then f c else 0) =
      ∑ j in Finset.range len, f (o.toNat + j) := by
  rw [← Finset.sum_filter]
  have hfil : (Finset.range N).filter (fun c : Nat => o ≤ (c : Int) ∧ (c : Int) < o + (len : Int)) =
      Finset.Ico o.toNat (o.toNat + len) := by
    ext c
    simp only [Finset.mem_filter, Finset.mem_range, Finset.mem_Ico]
    constructor
    · rintro ⟨_, h1, h2⟩
      constructor <;> omega
    · rintro ⟨h1, h2⟩
      refine ⟨by omega, by omega, by omega⟩
  rw [hfil, Finset.sum_Ico_eq_sum_range]
  simp

end AdjointLemmas

section ForwardClaims

variable {R K : Type} [CommRing K]

/-- C1 (as stated, refuted): the kernel holds `1 * 1 = 1` row, the empty
spectrum satisfies `len(cv) ≥ origin[0] + len(data[0]) = -1 + 1`, and
`processForward` panics on `cv[0 + origin[0]] = cv[-1]` instead of returning. -/
theorem processForward_negative_origin_panics :
    ((negativeOriginKernel.kernel.data.length : Int) =
        negativeOriginKernel.Properties.binsPerOctave *
          negativeOriginKernel.Properties.atomsPerFrame ∧
      negativeOriginKernel.kernel.origin.length = negativeOriginKernel.kernel.data.length ∧
      1 ≤ negativeOriginKernel.kernel.data.length ∧
      ∀ i, i < negativeOriginKernel.kernel.data.length →
        negativeOriginKernel.kernel.origin.getD i 0 +
          ((negativeOriginKernel.kernel.data.getD i []).length : Int) ≤
            (([] : List GaussianInt).length : Int)) ∧
    processForward negativeOriginKernel [] = .error .indexOutOfRange := by
  decide

/-- C1 (amended): for a kernel holding `binsPerOctave*atomsPerFrame ≥ 1` rows
and a spectrum `cv` with `0 ≤ origin[i]` and `origin[i] + len(data[i]) ≤ len(cv)`
for every row, `processForward` returns a vector of exactly
`binsPerOctave*atomsPerFrame` entries, entry `i` being
`Σ_j cv[j + origin[i]] * data[i][j]`; an all-zero spectrum gives an all-zero
vector. -/
theorem processForward_spec (k : CQKernel R K) (cv : List K)
    (hrows : (k.kernel.data.length : Int) =
      k.Properties.binsPerOctave * k.Properties.atomsPerFrame)
    (horig : k.kernel.origin.length = k.kernel.data.length)
    (hpos : 1 ≤ k.kernel.data.length)
    (hb : ∀ i, i < k.kernel.data.length → 0 ≤ k.kernel.origin.getD i 0 ∧
      k.kernel.origin.getD i 0 + ((k.kernel.data.getD i []).length : Int) ≤ (cv.length : Int)) :
    ∃ rv, processForward k cv = .ok rv ∧
      (rv.length : Int) = k.Properties.binsPerOctave * k.Properties.atomsPerFrame ∧
      (∀ i, i < rv.length → rv.getD i 0 =
        ∑ j in Finset.range (k.kernel.data.getD i []).length,
          cv.getD ((j : Int) + k.kernel.origin.getD i 0).toNat 0 *
            (k.kernel.data.getD i []).getD j 0) ∧
      ((∀ c ∈ cv, c = 0) → ∀ x ∈ rv, x = 0) := by
  obtain ⟨rv, hrun, hlen, hval⟩ :=
    forward_outer k cv k.kernel.data.length rfl horig hb
  refine ⟨rv, ?_, by omega, ?_, ?_⟩
  · unfold processForward
    rw [if_neg (by omega), ← hrows]
    simp only []
    rw [make_ok _ _ (by omega)]
    simpa using hrun
  · intro i hi
    exact hval i (by omega)
  · intro hz x hx
    obtain ⟨i, hi, rfl⟩ := List.getElem_of_mem hx
    have h1 := hval i (by omega)
    rw [List.getD_eq_getElem rv 0 hi] at h1
    rw [h1]
    apply Finset.sum_eq_zero
    intro j _
    have hc : cv.getD ((j : Int) + k.kernel.origin.getD i 0).toNat 0 = 0 := by
      rw [List.getD_eq_getElem?_getD]
      cases hget : cv[((j : Int) + k.kernel.origin.getD i 0).toNat]? with
      | none => rfl
      | some c => exact hz c (List.getElem?_mem hget)
    rw [hc, zero_mul]

/-- Witness for C1: the two-row sample kernel applied to a four-entry spectrum. -/
theorem processForward_spec_witness :
    ∃ rv, processForward sampleKernel [⟨1, 0⟩, ⟨0, 1⟩, ⟨1, 1⟩, 0] = .ok rv ∧
      (rv.length : Int) =
        sampleKernel.Properties.binsPerOctave * sampleKernel.Properties.atomsPerFrame ∧
      (∀ i, i < rv.length → rv.getD i 0 =
        ∑ j in Finset.range (sampleKernel.kernel.data.getD i []).length,
          List.getD [⟨1, 0⟩, ⟨0, 1⟩, ⟨1, 1⟩, 0]
              ((j : Int) + sampleKernel.kernel.origin.getD i 0).toNat 0 *
            (sampleKernel.kernel.data.getD i []).getD j 0) ∧
      ((∀ c ∈ ([⟨1, 0⟩, ⟨0, 1⟩, ⟨1, 1⟩, 0] : List GaussianInt), c = 0) → ∀ x ∈ rv, x = 0) :=
  processForward_spec sampleKernel [⟨1, 0⟩, ⟨0, 1⟩, ⟨1, 1⟩, 0] (by decide) (by decide)
    (by decide) (by decide)

end ForwardClaims

section ProjectorClaims

variable {R K : Type} [CommRing K] [StarRing K]

/-- C2: for a kernel holding `binsPerOctave*atomsPerFrame ≥ 1` rows, each with
`0 ≤ origin[j]` and `origin[j] + len(data[j]) ≤ fftSize`, and a coefficient
vector with at least that many entries, `ProcessInverse` returns a vector of
exactly `fftSize` entries, entry `c` being the sum over the rows `j` covering
`c` of `cv[j] * conj(data[j][c - origin[j]])` (an empty sum, `0`, when no row
covers `c`). -/
theorem ProcessInverse_spec (k : CQKernel R K) (cv : List K)
    (hrows : (k.kernel.data.length : Int) =
      k.Properties.binsPerOctave * k.Properties.atomsPerFrame)
    (horig : k.kernel.origin.length = k.kernel.data.length)
    (hpos : 1 ≤ k.kernel.data.length)
    (hb : ∀ j, j < k.kernel.data.length → 0 ≤ k.kernel.origin.getD j 0 ∧
      k.kernel.origin.getD j 0 + ((k.kernel.data.getD j []).length : Int) ≤
        k.Properties.fftSize)
    (hcv : k.kernel.data.length ≤ cv.length) :
    ∃ rv, ProcessInverse k cv = .ok rv ∧
      (rv.length : Int) = k.Properties.fftSize ∧
      ∀ c : Nat, c < rv.length → rv.getD c 0 =
        ∑ j in (Finset.range k.kernel.data.length).filter (fun j =>
            k.kernel.origin.getD j 0 ≤ (c : Int) ∧
              (c : Int) < k.kernel.origin.getD j 0 + ((k.kernel.data.getD j []).length : Int)),
          cv.getD j 0 *
            star ((k.kernel.data.getD j []).getD ((c : Int) - k.kernel.origin.getD j 0).toNat 0) := by
  have hfft : 0 ≤ k.Properties.fftSize := by
    have := hb 0 (by omega)
    omega
  obtain ⟨rv, hrun, hlen, hval⟩ :=
    inverse_outer k cv k.kernel.data.length k.Properties.fftSize.toNat rfl horig hcv
      (by
        intro j hj
        rw [Int.toNat_of_nonneg hfft]
        exact hb j hj)
  refine ⟨rv, ?_, by omega, ?_⟩
  · unfold ProcessInverse
    rw [if_neg (by omega), ← hrows]
    simp only []
    rw [make_ok _ _ hfft]
    exact hrun
  · intro c _
    rw [hval c, Finset.sum_filter]

/-- Witness for C2: the two-row sample kernel applied to two coefficients. -/
theorem ProcessInverse_spec_witness :
    ∃ rv, ProcessInverse sampleKernel [⟨1, 0⟩, ⟨0, 1⟩] = .ok rv ∧
      (rv.length : Int) = sampleKernel.Properties.fftSize ∧
      ∀ c : Nat, c < rv.length → rv.getD c 0 =
        ∑ j in (Finset.range sampleKernel.kernel.data.length).filter (fun j =>
            sampleKernel.kernel.origin.getD j 0 ≤ (c : Int) ∧
              (c : Int) < sampleKernel.kernel.origin.getD j 0 +
                ((sampleKernel.kernel.data.getD j []).length : Int)),
          List.getD [(⟨1, 0⟩ : GaussianInt), ⟨0, 1⟩] j 0 *
            star ((sampleKernel.kernel.data.getD j []).getD
              ((c : Int) - sampleKernel.kernel.origin.getD j 0).toNat 0) :=
  ProcessInverse_spec sampleKernel [⟨1, 0⟩, ⟨0, 1⟩] (by decide) (by decide) (by decide)
    (by decide) (by decide)

/-- C8: for every input vector, `processForward` and `ProcessInverse` both panic
with the empty-kernel error when the kernel holds no rows, and neither raises
that error when the kernel holds at least one row. -/
theorem emptyKernel_panic (k : CQKernel R K) (cv : List K) :
    (k.kernel.data.length = 0 →
      processForward k cv = .error .emptyKernel ∧ ProcessInverse k cv = .error .emptyKernel) ∧
    (1 ≤ k.kernel.data.length →
      processForward k cv ≠ .error .emptyKernel ∧ ProcessInverse k cv ≠ .error .emptyKernel) := by
  constructor
  · intro h
    unfold processForward ProcessInverse
    rw [if_pos h, if_pos h]
    exact ⟨rfl, rfl⟩
  · intro h
    exact ⟨forward_not_emptyKernel k cv (by omega), inverse_not_emptyKernel k cv (by omega)⟩

/-- Witness for C8: the kernel without rows panics with the empty-kernel error,
the two-row sample kernel does not. -/
theorem emptyKernel_panic_witness :
    (processForward (CQKernel.mk sampleKernel.Properties (Kernel.mk [] []))
        ([] : List GaussianInt) = .error .emptyKernel ∧
      ProcessInverse (CQKernel.mk sampleKernel.Properties (Kernel.mk [] []))
        ([] : List GaussianInt) = .error .emptyKernel) ∧
    (processForward sampleKernel [] ≠ .error .emptyKernel ∧
      ProcessInverse sampleKernel [] ≠ .error .emptyKernel) :=
  ⟨(emptyKernel_panic (CQKernel.mk sampleKernel.Properties (Kernel.mk [] []))
      ([] : List GaussianInt)).1 (by decide),
    (emptyKernel_panic sampleKernel ([] : List GaussianInt)).2 (by decide)⟩

end ProjectorClaims

section SparsifierClaims

variable {R K : Type} [LinearOrderedCommRing R] [CommRing K] [StarRing K] [Algebra R K]

/-- C4: for every dense row of width at least one, whatever its contents and
whatever the magnitude function and the weight, the sparsifier returns a sparse
row with `origin ≥ 0` and `origin + len(coefficients) ≤` the width of the row. -/
theorem sparsifyRow_bounds (cabs : K → R) (w : R) (row : List K) (hw : 1 ≤ row.length) :
    ∃ o d, sparsifyRow cabs w row = .ok (o, d) ∧
      0 ≤ o ∧ o + (d.length : Int) ≤ (row.length : Int) := by
  obtain ⟨o, d, hrun, h⟩ := sparsifyRow_ok cabs w row hw
  refine ⟨o, d, hrun, ?_⟩
  rcases h with ⟨ho, hd, _⟩ | ⟨f, l, hfl, hl, ho, _, _, _, _, hd⟩
  · rw [ho, hd]
    simp
  · rw [ho, hd]
    simp only [List.length_map, List.length_range]
    omega

/-- Witness for C4: an all-zero row of width three. -/
theorem sparsifyRow_bounds_witness :
    ∃ o d, sparsifyRow (fun z : GaussianInt => z.norm) (2 : ℤ) [0, 0, 0] = .ok (o, d) ∧
      0 ≤ o ∧ o + (d.length : Int) ≤ (([0, 0, 0] : List GaussianInt).length : Int) :=
  sparsifyRow_bounds (fun z : GaussianInt => z.norm) (2 : ℤ) [0, 0, 0] (by decide)

/-- C5: for a dense row of width at least one and a weight `w`: when `f` and `l`
are the first and last columns holding a nonzero entry, the sparsifier returns
origin `f` and exactly `l - f + 1` coefficients, coefficient `t` being
`conj(row[f + t]) * w` (interior zeros included); when the row is entirely zero
it returns origin `0` and no coefficient. -/
theorem sparsifyRow_spec (cabs : K → R) (hcabs : ∀ z : K, cabs z = 0 ↔ z = 0) (w : R)
    (row : List K) (hw : 1 ≤ row.length) :
    (∀ f l : Nat, f ≤ l → l < row.length → row.getD f 0 ≠ 0 → row.getD l 0 ≠ 0 →
      (∀ j, j < f → row.getD j 0 = 0) → (∀ j, j < row.length → l < j → row.getD j 0 = 0) →
      ∃ d, sparsifyRow cabs w row = .ok ((f : Int), d) ∧ d.length = l - f + 1 ∧
        ∀ t, t ≤ l - f → d.getD t 0 = star (row.getD (f + t) 0) * algebraMap R K w) ∧
    ((∀ j, j < row.length → row.getD j 0 = 0) → sparsifyRow cabs w row = .ok (0, [])) := by
  obtain ⟨o, d, hrun, h⟩ := sparsifyRow_ok cabs w row hw
  constructor
  · intro f l hfl hl hfv hlv hbefore hafter
    rcases h with ⟨_, _, hz⟩ | ⟨f2, l2, hfl2, hl2, ho, hfv2, hlv2, hz2, hz3, hd⟩
    · exact absurd ((hcabs _).1 (hz f (by omega))) hfv
    · have hf : f2 = f := by
        rcases Nat.lt_trichotomy f2 f with h1 | h1 | h1
        · exact absurd ((hcabs _).2 (hbefore f2 h1)) hfv2
        · exact h1
        · exact absurd ((hcabs _).1 (hz2 f h1)) hfv
      have hl3 : l2 = l := by
        rcases Nat.lt_trichotomy l2 l with h1 | h1 | h1
        · exact absurd ((hcabs _).1 (hz3 l h1 hl)) hlv
        · exact h1
        · exact absurd ((hcabs _).2 (hafter l2 hl2 h1)) hlv2
      subst hf hl3
      refine ⟨d, ?_, ?_, ?_⟩
      · rw [hrun, ho]
      · rw [hd]
        simp only [List.length_map, List.length_range]
        omega
      · intro t ht
        rw [hd, List.getD_eq_getElem?_getD, List.getElem?_map,
          List.getElem?_range (by omega)]
        rfl
  · intro hzero
    rcases h with ⟨ho, hd, _⟩ | ⟨f2, l2, _, hl2, _, hfv2, _⟩
    · rw [hrun, ho, hd]
    · have hlt : f2 < row.length := by omega
      exact absurd ((hcabs _).2 (hzero f2 hlt)) hfv2

/-- Witness for C5, over the complex numbers with their modulus: the row
`[0, i, 0, 3+i, 0, 0]` with weight `2`, first nonzero column `1`, last nonzero
column `3`. -/
theorem sparsifyRow_spec_witness :
    ∃ d, sparsifyRow Complex.abs (2 : ℝ)
        [0, Complex.I, 0, 3 + Complex.I, 0, 0] = .ok ((1 : Nat), d) ∧ d.length = 3 - 1 + 1 ∧
      ∀ t, t ≤ 3 - 1 →
        d.getD t 0 =
          star (List.getD [0, Complex.I, 0, 3 + Complex.I, 0, 0] (1 + t) 0) *
            algebraMap ℝ ℂ 2 :=
  (sparsifyRow_spec Complex.abs (fun _ => map_eq_zero Complex.abs) (2 : ℝ)
    [0, Complex.I, 0, 3 + Complex.I, 0, 0] (by decide)).1 1 3 (by decide) (by decide)
    (by simp) (by simp [Complex.ext_iff])
    (by intro j hj; interval_cases j; rfl)
    (by intro j h1 h2; simp at h1; interval_cases j <;> rfl)

/-- C3: for a dense kernel matrix with at least one row, every row of width
`fftSize ≥ 1`, a real weight `w` and one coefficient per row, `ProcessInverse`
on the sparse kernel built by the sparsifier returns `rv` of length `fftSize`
with `rv[c] = Σ_j cv[j] * (w * dense[j][c])` over all rows `j`: the stored
conjugates are conjugated back and the trimmed columns contribute zero. -/
theorem ProcessInverse_sparsify (cabs : K → R) (hcabs : ∀ z : K, cabs z = 0 ↔ z = 0)
    (hstar : ∀ r : R, star (algebraMap R K r) = algebraMap R K r) (w : R)
    (dense : List (List K)) (p : Properties R) (cv : List K)
    (hn : 1 ≤ dense.length) (hfft : 1 ≤ p.fftSize)
    (hwidth : ∀ i, i < dense.length → ((dense.getD i []).length : Int) = p.fftSize)
    (hrows : (dense.length : Int) = p.binsPerOctave * p.atomsPerFrame)
    (hcv : cv.length = dense.length) :
    ∃ sk rv, sparsify cabs w dense = .ok sk ∧
      ProcessInverse (CQKernel.mk p sk) cv = .ok rv ∧
      (rv.length : Int) = p.fftSize ∧
      ∀ c : Nat, c < rv.length → rv.getD c 0 =
        ∑ j in Finset.range dense.length,
          cv.getD j 0 * (algebraMap R K w * (dense.getD j []).getD c 0) := by
  have hw : ∀ i, i < dense.length → 1 ≤ (dense.getD i []).length := by
    intro i hi
    have := hwidth i hi
    omega
  obtain ⟨sk, hsk, hol, hdl, hrow⟩ := sparsify_ok cabs w dense hw
  have hbounds : ∀ j, j < dense.length → 0 ≤ sk.origin.getD j 0 ∧
      sk.origin.getD j 0 + ((sk.data.getD j []).length : Int) ≤ p.fftSize := by
    intro j hj
    obtain ⟨o, d, hrun, h⟩ := sparsifyRow_ok cabs w (dense.getD j []) (hw j hj)
    rw [hrow j hj] at hrun
    injection hrun with heq
    injection heq with ho hd
    rw [ho, hd, ← hwidth j hj]
    rcases h with ⟨ho, hd, _⟩ | ⟨f, l, hfl, hl, ho, _, _, _, _, hd⟩
    · rw [ho, hd]
      simp
    · rw [ho, hd]
      simp only [List.length_map, List.length_range]
      omega
  obtain ⟨rv, hrun, hlen, hval⟩ :=
    inverse_outer (CQKernel.mk p sk) cv dense.length p.fftSize.toNat hdl hol (by omega)
      (by
        intro j hj
        rw [Int.toNat_of_nonneg (by omega)]
        exact hbounds j hj)
  refine ⟨sk, rv, hsk, ?_, by omega, ?_⟩
  · unfold ProcessInverse
    rw [if_neg (by simp only [hdl]; omega), ← hrows]
    simp only []
    rw [make_ok _ _ (by omega)]
    exact hrun
  intro c hc
  rw [hval c]
  apply Finset.sum_congr rfl
  intro j hj
  have hj2 : j < dense.length := Finset.mem_range.1 hj
  exact sparsifyRow_contribution cabs hcabs hstar w (dense.getD j []) _ _ (hrow j hj2)
    (hw j hj2) (cv.getD j 0) c (by have := hwidth j hj2; omega)

/-- Witness for C3, over the complex numbers with their modulus: a two-row dense
matrix of width four, weight `2`, coefficients `[1, i]`. -/
theorem ProcessInverse_sparsify_witness :
    ∃ sk rv, sparsify Complex.abs (2 : ℝ)
        [[0, Complex.I, 0, 3 + Complex.I], [0, 0, 0, 0]] = .ok sk ∧
      ProcessInverse (CQKernel.mk (Properties.mk (0 : ℝ) 0 1 2 4 1 1 1 0 0 0) sk)
        [1, Complex.I] = .ok rv ∧
      (rv.length : Int) = (Properties.mk (0 : ℝ) 0 1 2 4 1 1 1 0 0 0).fftSize ∧
      ∀ c : Nat, c < rv.length → rv.getD c 0 =
        ∑ j in Finset.range
            ([[0, Complex.I, 0, 3 + Complex.I], [0, 0, 0, 0]] : List (List ℂ)).length,
          List.getD [1, Complex.I] j 0 *
            (algebraMap ℝ ℂ 2 *
              (List.getD [[0, Complex.I, 0, 3 + Complex.I], [0, 0, 0, 0]] j []).getD c 0) :=
  ProcessInverse_sparsify Complex.abs (fun _ => map_eq_zero Complex.abs)
    (fun r => by simp) (2 : ℝ)
    [[0, Complex.I, 0, 3 + Complex.I], [0, 0, 0, 0]]
    (Properties.mk (0 : ℝ) 0 1 2 4 1 1 1 0 0 0) [1, Complex.I]
    (by decide) (by decide) (by intro i hi; simp at hi; interval_cases i <;> rfl)
    (by decide) (by decide)

end SparsifierClaims

section ThresholdClaims

variable {R K : Type} [LinearOrderedField R] [CommRing K] [StarRing K] [Algebra R K]

/-- C6 (as stated, refuted): with threshold `1` and `fftSize = 2` the FFT output
`[1, 1]` becomes the dense row `[1/2, 1/2]`; its entry `0` has magnitude
`1/2 < 1`, lies inside the stored span `[0, 2)` and is stored as the nonzero
coefficient `1/2`. -/
theorem scaled_entry_below_threshold_kept :
    thresholdRow (fun z : ℚ => |z|) 1 2 [1, 1] = .ok [1 / 2, 1 / 2] ∧
      sparsifyRow (fun z : ℚ => |z|) (1 : ℚ) [1 / 2, 1 / 2] = .ok (0, [1 / 2, 1 / 2]) ∧
      |List.getD [(1 / 2 : ℚ), 1 / 2] 0 0| < 1 ∧
      ((0 : Int) ≤ 0 ∧ (0 : Int) < 0 + (([1 / 2, 1 / 2] : List ℚ).length : Int)) ∧
      List.getD [(1 / 2 : ℚ), 1 / 2] 0 0 ≠ 0 := by
  decide!

/-- C6 (amended): for every FFT output row of `fftSize ≥ 1` values, every
threshold and every weight, after the thresholding/scaling step and the
sparsifier every column whose FFT output value has magnitude below the
threshold lies outside the stored span or is stored as an exactly-zero
coefficient. -/
theorem thresholded_entry_zero (cabs : K → R) (thresh w : R) (fftSize : Int) (cout : List K)
    (hlen : (cout.length : Int) = fftSize) (hpos : 1 ≤ fftSize) :
    ∃ dense o d, thresholdRow cabs thresh fftSize cout = .ok dense ∧
      sparsifyRow cabs w dense = .ok (o, d) ∧
      ∀ c : Nat, c < cout.length → cabs (cout.getD c 0) < thresh →
        ¬ (o ≤ (c : Int) ∧ (c : Int) < o + (d.length : Int)) ∨
          d.getD ((c : Int) - o).toNat 0 = 0 := by
  obtain ⟨dense, hdense, hl, hval⟩ := thresholdRow_ok cabs thresh fftSize cout hlen
  obtain ⟨o, d, hrun, h⟩ := sparsifyRow_ok cabs w dense (by omega)
  refine ⟨dense, o, d, hdense, hrun, ?_⟩
  intro c hc hlt
  have hzero : dense.getD c 0 = 0 := by rw [hval c hc, if_pos hlt]
  rcases h with ⟨ho, hd, _⟩ | ⟨f, l, hfl, hl2, ho, _, _, _, _, hd⟩
  · left
    rw [ho, hd]
    simp
  · by_cases hin : f ≤ c ∧ c ≤ l
    · right
      have hidx : ((c : Int) - o).toNat = c - f := by omega
      have e : f + (c - f) = c := by omega
      rw [hidx, hd, List.getD_eq_getElem?_getD, List.getElem?_map,
        List.getElem?_range (by omega)]
      simp only [Option.map_some', Option.getD_some, e, hzero, complexTimes, star_zero,
        zero_mul]
    · left
      have hdl : d.length = l + 1 - f := by rw [hd]; simp
      omega

/-- Witness for C6: threshold `1`, `fftSize = 4`, FFT output `[1/2, 2, 1/3, 4]`. -/
theorem thresholded_entry_zero_witness :
    ∃ dense o d, thresholdRow (fun z : ℚ => |z|) 1 4 [1 / 2, 2, 1 / 3, 4] = .ok dense ∧
      sparsifyRow (fun z : ℚ => |z|) (3 : ℚ) dense = .ok (o, d) ∧
      ∀ c : Nat, c < ([1 / 2, 2, 1 / 3, 4] : List ℚ).length →
        |List.getD [(1 / 2 : ℚ), 2, 1 / 3, 4] c 0| < 1 →
        ¬ (o ≤ (c : Int) ∧ (c : Int) < o + (d.length : Int)) ∨
          d.getD ((c : Int) - o).toNat 0 = 0 :=
  thresholded_entry_zero (fun z : ℚ => |z|) 1 3 4 [1 / 2, 2, 1 / 3, 4] (by decide) (by decide)

end ThresholdClaims

section WindowClaims

variable {R : Type} [LinearOrderedField R]

/-- C9 (failing input): `makeWindow(SqrtBlackmanHarris, 1)` passes the
`len <= 0` guard, allocates `len-1 = 0` samples and panics on `win[0]` in
`append(win, win[0])`. -/
theorem makeWindow_one_panics (m : MathFns R) :
    makeWindow m Window.SqrtBlackmanHarris 1 = .error .indexOutOfRange := by
  rfl

end WindowClaims

section ConstructionClaims

variable {R K : Type} [LinearOrderedField R] [FloorRing R] [CommRing K] [StarRing K]
  [Algebra R K]

/-- C7: whenever `NewCQKernel` returns a kernel, `BinCount()` of that kernel is
`params.Octaves * params.BinsPerOctave`. -/
theorem BinCount_NewCQKernel (m : MathFns R) (c : CmplxFns R K) (params : CQParams R)
    (k : CQKernel R K) (h : NewCQKernel m c params = .ok k) :
    BinCount k = params.Octaves * params.BinsPerOctave := by
  obtain ⟨p, kernel, weight, sk, hp, _, _, _, hk⟩ := NewCQKernel_stages m c params k h
  obtain ⟨ho, hb⟩ := geometry_fields m params p hp
  rw [hk]
  unfold BinCount
  rw [ho, hb]

/-- Witness for C7: the construction succeeds on `sampleParams` (one octave,
twelve bins per octave) and the bin count is `12`. -/
theorem BinCount_NewCQKernel_witness :
    ∃ k, NewCQKernel rationalMath rationalCmplx sampleParams = .ok k ∧ BinCount k = 1 * 12 :=
  match h : NewCQKernel rationalMath rationalCmplx sampleParams with
  | .ok k => ⟨k, rfl, BinCount_NewCQKernel rationalMath rationalCmplx sampleParams k h⟩
  | .error e =>
    have hok : (NewCQKernel rationalMath rationalCmplx sampleParams).isOk = true := by decide!
    absurd (h ▸ hok) (by simp [Except.isOk, Except.toBool])

/-- C10: `makeWindow` returns a window only for a length `> 0` and the kind
`SqrtBlackmanHarris`; for every other kind and every length it panics; and
`NewCQKernel` returns no kernel for parameters whose window kind is not
`SqrtBlackmanHarris`. -/
theorem only_SqrtBlackmanHarris (m : MathFns R) (c : CmplxFns R K) :
    (∀ (window : Window) (len : Int) (win : List R),
      makeWindow m window len = .ok win → 0 < len ∧ window = Window.SqrtBlackmanHarris) ∧
    (∀ (window : Window) (len : Int), window ≠ Window.SqrtBlackmanHarris →
      ∃ e, makeWindow m window len = .error e) ∧
    (∀ (params : CQParams R), params.window ≠ Window.SqrtBlackmanHarris →
      ∃ e, NewCQKernel m c params = .error e) := by
  refine ⟨?_, ?_, ?_⟩
  · intro window len win h
    exact makeWindow_ok_kind m window len win h
  · intro window len hne
    cases hres : makeWindow m window len with
    | error e => exact ⟨e, rfl⟩
    | ok win => exact absurd (makeWindow_ok_kind m window len win hres).2 hne
  · intro params hwin
    cases hres : NewCQKernel m c params with
    | error e => exact ⟨e, rfl⟩
    | ok k =>
      exfalso
      obtain ⟨p, kernel, weight, sk, _, hk, hw, _, _⟩ := NewCQKernel_stages m c params k hres
      rw [denseKernel_unsupported m c params p kernel hwin hk,
        normalisationWeight_empty m c params.q p] at hw
      cases hw

end ConstructionClaims

section GeometryClaims

variable {R : Type} [LinearOrderedField R] [FloorRing R]

/-- C13: for every parameter record that passes the atom-length check, the
`fftSize` computed by `NewCQKernel` is a power of two, is at least
`firstCentre + ⌈maxNK/2⌉`, and is at most every power of two with that
property. -/
theorem fftSize_least_power_of_two (m : MathFns R) (params : CQParams R) (p : Properties R)
    (h : geometry m params = .ok p) :
    (∃ k : Nat, p.fftSize = 2 ^ k) ∧
      p.firstCentre + ⌈((maxNK m params : Int) : R) / 2⌉ ≤ p.fftSize ∧
      ∀ k : Nat, p.firstCentre + ⌈((maxNK m params : Int) : R) / 2⌉ ≤ 2 ^ k →
        p.fftSize ≤ 2 ^ k := by
  obtain ⟨_, _, hp⟩ := geometry_ok m params p h
  have hfft : p.fftSize =
      nextPowerOf2 (p.firstCentre + roundUp (((maxNK m params : Int) : R) / 2)) := by
    rw [hp]; rfl
  rw [hfft]
  exact nextPowerOf2_spec _

/-- Witness for C13: the geometry of `sampleParams`. -/
theorem fftSize_least_power_of_two_witness :
    ∃ p, geometry rationalMath sampleParams = .ok p ∧
      ((∃ k : Nat, p.fftSize = 2 ^ k) ∧
        p.firstCentre + ⌈((maxNK rationalMath sampleParams : Int) : ℚ) / 2⌉ ≤ p.fftSize ∧
        ∀ k : Nat, p.firstCentre + ⌈((maxNK rationalMath sampleParams : Int) : ℚ) / 2⌉ ≤ 2 ^ k →
          p.fftSize ≤ 2 ^ k) :=
  match h : geometry rationalMath sampleParams with
  | .ok p => ⟨p, rfl, fftSize_least_power_of_two rationalMath sampleParams p h⟩
  | .error e =>
    have hok : (geometry rationalMath sampleParams).isOk = true := by decide!
    absurd (h ▸ hok) (by simp [Except.isOk, Except.toBool])

/-- C14: for a minimum atom length `minNK ≥ 1` and a positive hop factor, the
`atomSpacing` computed by `NewCQKernel` is at least one and `firstCentre` is
the smallest multiple of `atomSpacing` that is at least `⌈maxNK/2⌉`: it is
divisible by `atomSpacing`, at least `⌈maxNK/2⌉`, and one spacing less falls
below `⌈maxNK/2⌉`. -/
theorem firstCentre_least_multiple (m : MathFns R) (params : CQParams R) (p : Properties R)
    (h : geometry m params = .ok p) (hmin : 1 ≤ minNK m params)
    (hpos : 0 < params.atomHopFactor) :
    1 ≤ p.atomSpacing ∧ p.atomSpacing ∣ p.firstCentre ∧
      ⌈((maxNK m params : Int) : R) / 2⌉ ≤ p.firstCentre ∧
      p.firstCentre - p.atomSpacing < ⌈((maxNK m params : Int) : R) / 2⌉ ∧
      ∀ s : Int, ⌈((maxNK m params : Int) : R) / 2⌉ ≤ p.atomSpacing * s →
        p.firstCentre ≤ p.atomSpacing * s := by
  obtain ⟨_, _, hp⟩ := geometry_ok m params p h
  have hA : 1 ≤ p.atomSpacing := by
    rw [hp]
    exact layout_atomSpacing_pos _ _ _ _ hmin hpos
  have hfc : p.firstCentre = p.atomSpacing *
      roundUp (((⌈((maxNK m params : Int) : R) / 2⌉ : Int) : R) / (p.atomSpacing : R)) := by
    rw [hp]; rfl
  obtain ⟨h1, h2, h3⟩ :=
    ceil_multiple (R := R) p.atomSpacing ⌈((maxNK m params : Int) : R) / 2⌉ hA
  unfold roundUp at hfc
  rw [← hfc] at h1 h2
  refine ⟨hA, ⟨_, hfc⟩, h1, h2, ?_⟩
  intro s hs
  rw [hfc]
  exact h3 s hs

/-- Witness for C14: the geometry of `sampleParams`. -/
theorem firstCentre_least_multiple_witness :
    ∃ p, geometry rationalMath sampleParams = .ok p ∧
      (1 ≤ p.atomSpacing ∧ p.atomSpacing ∣ p.firstCentre ∧
        ⌈((maxNK rationalMath sampleParams : Int) : ℚ) / 2⌉ ≤ p.firstCentre ∧
        p.firstCentre - p.atomSpacing < ⌈((maxNK rationalMath sampleParams : Int) : ℚ) / 2⌉ ∧
        ∀ s : Int, ⌈((maxNK rationalMath sampleParams : Int) : ℚ) / 2⌉ ≤ p.atomSpacing * s →
          p.firstCentre ≤ p.atomSpacing * s) :=
  match h : geometry rationalMath sampleParams with
  | .ok p => ⟨p, rfl, firstCentre_least_multiple rationalMath sampleParams p h (by decide!)
      (by decide!)⟩
  | .error e =>
    have hok : (geometry rationalMath sampleParams).isOk = true := by decide!
    absurd (h ▸ hok) (by simp [Except.isOk, Except.toBool])

/-- C15 (as stated, refuted): over the reals, for sample rate `44100`, minimum
frequency `20000`, one octave of one bin and `q = 1`, `NewCQKernel` derives the
maximum atom length `1`, while the stated formula with the supplied minimum
frequency gives `2`. -/
theorem maxNK_not_from_supplied_minFrequency :
    maxNK (MathFns.mk (fun x y : ℝ => x ^ y) Real.cos Real.sqrt Real.pi)
        (degenerateParams (1 / 4) 0) = 1 ∧
      ⌊kernelQ (MathFns.mk (fun x y : ℝ => x ^ y) Real.cos Real.sqrt Real.pi)
            (degenerateParams (1 / 4) 0) *
          (degenerateParams (1 / 4 : ℝ) 0).sampleRate /
            (degenerateParams (1 / 4 : ℝ) 0).minFrequency + 1 / 2⌋ = 2 := by
  obtain ⟨_, hq, hmax, _⟩ := degenerate_values
    (MathFns.mk (fun x y : ℝ => x ^ y) Real.cos Real.sqrt Real.pi)
    (Real.rpow_one 2) (Real.rpow_zero 2) (1 / 4) 0
  refine ⟨hmax, ?_⟩
  rw [hq]
  simp only [degenerateParams]
  rw [Int.floor_eq_iff]
  constructor <;> norm_num

/-- C15 (amended): for every parameter record that passes the atom-length
check, with `Q' = q / (2^(1/binsPerOctave) - 1)` and `minFrequency'` the value
`params.minFrequency * 2^(octaves - 1 + 1/binsPerOctave)` that `NewCQKernel`
stores in `Properties.minFrequency`, the maximum atom length is
`⌊Q' * sampleRate / minFrequency' + 0.5⌋` and the minimum atom length is
`⌊Q' * sampleRate / (minFrequency' * 2^((binsPerOctave-1)/binsPerOctave)) + 0.5⌋`. -/
theorem atom_lengths_formula (m : MathFns R) (params : CQParams R) (p : Properties R)
    (h : geometry m params = .ok p) :
    p.Q = params.q / (m.pow 2 (1 / (params.BinsPerOctave : R)) - 1) ∧
      p.minFrequency = params.minFrequency *
        m.pow 2 ((params.Octaves : R) - 1 + 1 / (params.BinsPerOctave : R)) ∧
      maxNK m params = ⌊p.Q * params.sampleRate / p.minFrequency + 1 / 2⌋ ∧
      minNK m params = ⌊p.Q * params.sampleRate /
        (p.minFrequency *
          m.pow 2 (((params.BinsPerOctave : R) - 1) / (params.BinsPerOctave : R))) + 1 / 2⌋ := by
  obtain ⟨_, _, hp⟩ := geometry_ok m params p h
  have hQ : p.Q = kernelQ m params := by rw [hp]; rfl
  have hF : p.minFrequency = kernelMinFrequency m params := by rw [hp]; rfl
  rw [hQ, hF]
  exact ⟨rfl, rfl, rfl, rfl⟩

/-- Witness for C15, over the reals: sample rate `44100`, minimum frequency
`20000`, one octave of one bin, `q = 1`. -/
theorem atom_lengths_formula_witness :
    ∃ p, geometry (MathFns.mk (fun x y : ℝ => x ^ y) Real.cos Real.sqrt Real.pi)
        (degenerateParams (1 / 4) 0) = .ok p ∧
      (p.Q = (degenerateParams (1 / 4 : ℝ) 0).q /
          ((2 : ℝ) ^ (1 / (((degenerateParams (1 / 4 : ℝ) 0).BinsPerOctave : Int) : ℝ)) - 1) ∧
        p.minFrequency = (degenerateParams (1 / 4 : ℝ) 0).minFrequency *
          (2 : ℝ) ^ ((((degenerateParams (1 / 4 : ℝ) 0).Octaves : Int) : ℝ) - 1 +
            1 / (((degenerateParams (1 / 4 : ℝ) 0).BinsPerOctave : Int) : ℝ)) ∧
        maxNK (MathFns.mk (fun x y : ℝ => x ^ y) Real.cos Real.sqrt Real.pi)
            (degenerateParams (1 / 4) 0) =
          ⌊p.Q * (degenerateParams (1 / 4 : ℝ) 0).sampleRate / p.minFrequency + 1 / 2⌋ ∧
        minNK (MathFns.mk (fun x y : ℝ => x ^ y) Real.cos Real.sqrt Real.pi)
            (degenerateParams (1 / 4) 0) =
          ⌊p.Q * (degenerateParams (1 / 4 : ℝ) 0).sampleRate /
            (p.minFrequency *
              (2 : ℝ) ^ (((((degenerateParams (1 / 4 : ℝ) 0).BinsPerOctave : Int) : ℝ) - 1) /
                (((degenerateParams (1 / 4 : ℝ) 0).BinsPerOctave : Int) : ℝ))) + 1 / 2⌋) := by
  obtain ⟨p, hp⟩ := degenerate_geometry
    (MathFns.mk (fun x y : ℝ => x ^ y) Real.cos Real.sqrt Real.pi)
    (Real.rpow_one 2) (Real.rpow_zero 2) (1 / 4) 0
  exact ⟨p, hp, atom_lengths_formula _ _ p hp⟩

/-- C20: for every parameter record that passes the atom-length check with
`minNK ≥ 1`, `maxNK ≥ 1` and a positive hop factor, and `math.Pow(2, x) ≥ 1`
for `x ≥ 0`: `atomsPerFrame ≥ 1`, and for every bin `k` in `[1, binsPerOctave]`
with atom length `nk` and every atom index `i` in `[0, atomsPerFrame)` the
shift `firstCentre - ⌈nk/2⌉ + i*atomSpacing` satisfies `0 ≤ shift` and
`shift + nk ≤ fftSize`, so every index `j + shift` with `j` in `[0, nk)` lies
in `[0, fftSize)`. -/
theorem atoms_inside_buffer (m : MathFns R) (params : CQParams R) (p : Properties R)
    (h : geometry m params = .ok p) (hmin : 1 ≤ minNK m params) (hmax : 1 ≤ maxNK m params)
    (hpos : 0 < params.atomHopFactor) (hpow : ∀ x : R, 0 ≤ x → 1 ≤ m.pow 2 x) :
    1 ≤ p.atomsPerFrame ∧
      ∀ k : Int, 1 ≤ k → k ≤ p.binsPerOctave → ∀ i : Int, 0 ≤ i → i < p.atomsPerFrame →
        0 ≤ p.firstCentre - roundUp ((atomLength m params p k : R) / 2) + i * p.atomSpacing ∧
        p.firstCentre - roundUp ((atomLength m params p k : R) / 2) + i * p.atomSpacing +
          atomLength m params p k ≤ p.fftSize ∧
        ∀ j : Int, 0 ≤ j → j < atomLength m params p k →
          0 ≤ j + (p.firstCentre - roundUp ((atomLength m params p k : R) / 2) +
            i * p.atomSpacing) ∧
          j + (p.firstCentre - roundUp ((atomLength m params p k : R) / 2) +
            i * p.atomSpacing) < p.fftSize := by
  obtain ⟨_, hrest⟩ := geometry_facts m params p h
  obtain ⟨_, _, _, _, _, hapf, _⟩ := hrest hmin hpos
  refine ⟨hapf, ?_⟩
  intro k hk1 hk2 i hi0 hi1
  obtain ⟨hlo, hhi⟩ := placement_facts m params p h hmin hmax hpos hpow k hk1 hk2 i hi0 hi1
  refine ⟨hlo, hhi, ?_⟩
  intro j hj0 hj1
  constructor
  · omega
  · omega

/-- Witness for C20: the geometry of `sampleParams` with the chord stand-in of
`math.Pow`, which is at least one on nonnegative exponents. -/
theorem atoms_inside_buffer_witness :
    ∃ p, geometry rationalMath sampleParams = .ok p ∧
      (1 ≤ p.atomsPerFrame ∧
        ∀ k : Int, 1 ≤ k → k ≤ p.binsPerOctave → ∀ i : Int, 0 ≤ i → i < p.atomsPerFrame →
          0 ≤ p.firstCentre - roundUp ((atomLength rationalMath sampleParams p k : ℚ) / 2) +
            i * p.atomSpacing ∧
          p.firstCentre - roundUp ((atomLength rationalMath sampleParams p k : ℚ) / 2) +
            i * p.atomSpacing + atomLength rationalMath sampleParams p k ≤ p.fftSize ∧
          ∀ j : Int, 0 ≤ j → j < atomLength rationalMath sampleParams p k →
            0 ≤ j + (p.firstCentre -
              roundUp ((atomLength rationalMath sampleParams p k : ℚ) / 2) +
              i * p.atomSpacing) ∧
            j + (p.firstCentre -
              roundUp ((atomLength rationalMath sampleParams p k : ℚ) / 2) +
              i * p.atomSpacing) < p.fftSize) :=
  match h : geometry rationalMath sampleParams with
  | .ok p => ⟨p, rfl, atoms_inside_buffer rationalMath sampleParams p h (by decide!)
      (by decide!) (by decide!)
      (fun x hx => by
        show (1 : ℚ) ≤ 1 + (2 - 1) * x
        linarith)⟩
  | .error e =>
    have hok : (geometry rationalMath sampleParams).isOk = true := by decide!
    absurd (h ▸ hok) (by simp [Except.isOk, Except.toBool])

end GeometryClaims

section DegenerateClaims

variable {R K : Type} [LinearOrderedField R] [FloorRing R] [CommRing K] [StarRing K]
  [Algebra R K]

/-- C16 (as stated, refuted): over the reals, for sample rate `44100`, minimum
frequency `20000`, one octave of one bin and `q = 1` (hop factor `1/4`,
threshold `0`), both atom lengths derived by `NewCQKernel` are `1`, not `0`,
and the `minNK`/`maxNK` check is passed. -/
theorem degenerate_atom_length_is_one :
    maxNK (MathFns.mk (fun x y : ℝ => x ^ y) Real.cos Real.sqrt Real.pi)
        (degenerateParams (1 / 4) 0) = 1 ∧
      minNK (MathFns.mk (fun x y : ℝ => x ^ y) Real.cos Real.sqrt Real.pi)
        (degenerateParams (1 / 4) 0) = 1 ∧
      ∃ p, geometry (MathFns.mk (fun x y : ℝ => x ^ y) Real.cos Real.sqrt Real.pi)
        (degenerateParams (1 / 4) 0) = .ok p := by
  obtain ⟨_, _, hmax, hmin⟩ := degenerate_values
    (MathFns.mk (fun x y : ℝ => x ^ y) Real.cos Real.sqrt Real.pi)
    (Real.rpow_one 2) (Real.rpow_zero 2) (1 / 4) 0
  exact ⟨hmax, hmin, degenerate_geometry _ (Real.rpow_one 2) (Real.rpow_zero 2) (1 / 4) 0⟩

/-- C16 (amended): for sample rate `44100`, minimum frequency `20000`, one
octave of one bin and `q = 1`, with any hop factor and threshold and with
`math.Pow(2, 1) = 2`, `math.Pow(2, 0) = 1`: both atom lengths derived by
`NewCQKernel` are `1`, the `minNK`/`maxNK` check is passed, and `NewCQKernel`
does not fail with the invalid-geometry error. -/
theorem degenerate_passes_check (m : MathFns R) (c : CmplxFns R K) (h1 : m.pow 2 1 = 2)
    (h0 : m.pow 2 0 = 1) (a t : R) :
    maxNK m (degenerateParams a t) = 1 ∧ minNK m (degenerateParams a t) = 1 ∧
      (∃ p, geometry m (degenerateParams a t) = .ok p) ∧
      NewCQKernel m c (degenerateParams a t) ≠ .error .invalidGeometry := by
  obtain ⟨_, _, hmax, hmin⟩ := degenerate_values m h1 h0 a t
  refine ⟨hmax, hmin, degenerate_geometry m h1 h0 a t, ?_⟩
  rcases degenerate_construction m c h1 h0 a t with h | h
  · rw [h]
    intro he
    cases he
  · rw [h]
    intro he
    cases he

/-- Witness for C16: the rational stand-ins, whose `pow` is exact at the
exponents `0` and `1`. -/
theorem degenerate_passes_check_witness :
    maxNK rationalMath (degenerateParams (1 / 4) 0) = 1 ∧
      minNK rationalMath (degenerateParams (1 / 4) 0) = 1 ∧
      (∃ p, geometry rationalMath (degenerateParams (1 / 4) 0) = .ok p) ∧
      NewCQKernel rationalMath rationalCmplx (degenerateParams (1 / 4) 0) ≠
        .error .invalidGeometry :=
  degenerate_passes_check rationalMath rationalCmplx (by decide!) (by decide!) (1 / 4) 0

end DegenerateClaims

section WindowShapeClaims

variable {R : Type} [LinearOrderedField R]

/-- C11 (as stated, refuted): over the reals the window of length `3` has
`win[0] = √0.00006 / 3` and `win[3-2-0] = win[1] = 1/3`, which differ. -/
theorem window_three_not_symmetric_about_N_minus_two :
    ∃ win, makeWindow (MathFns.mk (fun x y : ℝ => x ^ y) Real.cos Real.sqrt Real.pi)
        Window.SqrtBlackmanHarris 3 = .ok win ∧
      win.getD 0 0 ≠ win.getD (3 - 2 - 0) 0 := by
  obtain ⟨win, hrun, h0, h1, _⟩ := real_window_three
  refine ⟨win, hrun, ?_⟩
  rw [h0, h1]
  intro he
  have h2 : Real.sqrt (6 / 100000) = 1 := by linarith
  rw [Real.sqrt_eq_one] at h2
  norm_num at h2

/-- C11 (amended): for every length `N` for which
`makeWindow(SqrtBlackmanHarris, N)` returns a window `win`, with an even cosine
of period `2π` (arithmetic over the reals): `win[i] = win[N-1-i]` for every `i`
in `[0, N)`; the appended final sample `win[N-1]` equals `win[0]` and completes
the symmetry. -/
theorem window_symmetric (m : MathFns R) (hper : ∀ x, m.cos (x + 2 * m.pi) = m.cos x)
    (heven : ∀ x, m.cos (-x) = m.cos x) (N : Int) (win : List R)
    (h : makeWindow m Window.SqrtBlackmanHarris N = .ok win) :
    ∀ i : Nat, (i : Int) < N → win.getD i 0 = win.getD (N - 1 - (i : Int)).toNat 0 := by
  intro i hi
  have hN := makeWindow_two_le m _ N win h
  obtain ⟨win2, hrun, _, hval, hlast⟩ := makeWindow_ok m N hN
  rw [h] at hrun
  injection hrun with hrun
  subst hrun
  by_cases h0 : i = 0
  · subst h0
    simp only [Nat.cast_zero, sub_zero]
    exact hlast.symm
  · by_cases h1 : (i : Int) = N - 1
    · have e : (N - 1 - (i : Int)).toNat = 0 := by omega
      have e2 : i = (N - 1).toNat := by omega
      rw [e, e2]
      exact hlast
    · have hj : (((N - 1 - (i : Int)).toNat : Nat) : Int) = N - 1 - (i : Int) := by omega
      rw [hval i (by omega), hval (N - 1 - (i : Int)).toNat (by omega), hj]
      have hn : (((N - 1 : Int)) : R) ≠ 0 := by
        have : (0 : R) < ((N - 1 : Int) : R) := by exact_mod_cast (by omega : (0 : Int) < N - 1)
        exact ne_of_gt this
      have hc : ((N - 1 - (i : Int) : Int) : R) = ((N - 1 : Int) : R) - (((i : Int)) : R) := by
        push_cast; ring
      obtain ⟨c1, c2, c3⟩ := cos_term_symm m hper heven ((N - 1 : Int) : R) (((i : Int)) : R) hn
      rw [hc, c1, c2, c3]

/-- Witness for C11, over the reals with `Real.cos`: the window of length `3`. -/
theorem window_symmetric_witness :
    ∃ win, makeWindow (MathFns.mk (fun x y : ℝ => x ^ y) Real.cos Real.sqrt Real.pi)
        Window.SqrtBlackmanHarris 3 = .ok win ∧
      ∀ i : Nat, (i : Int) < 3 → win.getD i 0 = win.getD (3 - 1 - (i : Int)).toNat 0 := by
  obtain ⟨win, hrun, _⟩ := real_window_three
  exact ⟨win, hrun, fun i hi =>
    window_symmetric (MathFns.mk (fun x y : ℝ => x ^ y) Real.cos Real.sqrt Real.pi)
      Real.cos_add_two_pi Real.cos_neg 3 win hrun i hi⟩

/-- C12 (as stated, refuted): over the reals the window of length `3` has
`win[1] = 1/3`, while the stated formula with denominator `N - 2 = 1` gives
`√0.00006 / 3`. -/
theorem window_three_denominator :
    ∃ win, makeWindow (MathFns.mk (fun x y : ℝ => x ^ y) Real.cos Real.sqrt Real.pi)
        Window.SqrtBlackmanHarris 3 = .ok win ∧
      win.getD 1 0 ≠
        Real.sqrt (0.35875 - 0.48829 * Real.cos (2 * Real.pi * 1 / (3 - 2)) +
          0.14128 * Real.cos (4 * Real.pi * 1 / (3 - 2)) -
          0.01168 * Real.cos (6 * Real.pi * 1 / (3 - 2))) / 3 := by
  obtain ⟨win, hrun, _, h1, _⟩ := real_window_three
  refine ⟨win, hrun, ?_⟩
  have e1 : (2 * Real.pi * 1 / (3 - 2) : ℝ) = 2 * Real.pi := by ring
  have e2 : (4 * Real.pi * 1 / (3 - 2) : ℝ) = ((2 : ℕ) : ℝ) * (2 * Real.pi) := by
    push_cast; ring
  have e3 : (6 * Real.pi * 1 / (3 - 2) : ℝ) = ((3 : ℕ) : ℝ) * (2 * Real.pi) := by
    push_cast; ring
  rw [h1, e1, e2, e3, Real.cos_two_pi, Real.cos_nat_mul_two_pi, Real.cos_nat_mul_two_pi]
  intro he
  have h2 : Real.sqrt (0.35875 - 0.48829 * 1 + 0.14128 * 1 - 0.01168 * 1) = 1 := by linarith
  rw [Real.sqrt_eq_one] at h2
  norm_num at h2

/-- C12 (amended): for every length `N` for which
`makeWindow(SqrtBlackmanHarris, N)` returns a window `win`: for every `i` in
`[0, N-1)`, `win[i] = sqrt(0.35875 - 0.48829*cos(2πi/(N-1)) +
0.14128*cos(4πi/(N-1)) - 0.01168*cos(6πi/(N-1))) / N`, the cosine sum being
taken over the denominator `N - 1`, and `win[N-1] = win[0]`. -/
theorem window_formula (m : MathFns R) (N : Int) (win : List R)
    (h : makeWindow m Window.SqrtBlackmanHarris N = .ok win) :
    (∀ i : Nat, (i : Int) < N - 1 → win.getD i 0 =
      m.sqrt (0.35875 -
        0.48829 * m.cos (2 * m.pi * (i : R) / ((N : R) - 1)) +
        0.14128 * m.cos (4 * m.pi * (i : R) / ((N : R) - 1)) -
        0.01168 * m.cos (6 * m.pi * (i : R) / ((N : R) - 1))) / (N : R)) ∧
      win.getD (N - 1).toNat 0 = win.getD 0 0 := by
  have hN := makeWindow_two_le m _ N win h
  obtain ⟨win2, hrun, _, hval, hlast⟩ := makeWindow_ok m N hN
  rw [h] at hrun
  injection hrun with hrun
  subst hrun
  refine ⟨?_, hlast⟩
  intro i hi
  rw [hval i hi, one_mul]
  push_cast
  rfl

/-- Witness for C12, over the reals with `Real.cos` and `Real.sqrt`: the window
of length `3`. -/
theorem window_formula_witness :
    ∃ win, makeWindow (MathFns.mk (fun x y : ℝ => x ^ y) Real.cos Real.sqrt Real.pi)
        Window.SqrtBlackmanHarris 3 = .ok win ∧
      ((∀ i : Nat, (i : Int) < 3 - 1 → win.getD i 0 =
        Real.sqrt (0.35875 -
          0.48829 * Real.cos (2 * Real.pi * (i : ℝ) / (((3 : Int) : ℝ) - 1)) +
          0.14128 * Real.cos (4 * Real.pi * (i : ℝ) / (((3 : Int) : ℝ) - 1)) -
          0.01168 * Real.cos (6 * Real.pi * (i : ℝ) / (((3 : Int) : ℝ) - 1))) /
            ((3 : Int) : ℝ)) ∧
        win.getD ((3 : Int) - 1).toNat 0 = win.getD 0 0) := by
  obtain ⟨win, hrun, _⟩ := real_window_three
  exact ⟨win, hrun,
    window_formula (MathFns.mk (fun x y : ℝ => x ^ y) Real.cos Real.sqrt Real.pi) 3 win hrun⟩

end WindowShapeClaims

section KernelRowClaims

variable {R K : Type} [LinearOrderedField R] [FloorRing R] [CommRing K] [StarRing K]
  [Algebra R K]

/-- C17: whenever `NewCQKernel` returns a kernel, its properties are those of
the geometry step for the parameters, with at least one bin per octave and at
least one atom per frame; its sparse kernel has exactly
`binsPerOctave * atomsPerFrame` rows (origin and data sequences both of that
length); and for every bin `k` in `[1, binsPerOctave]` and atom index `i` in
`[0, atomsPerFrame)` the row at index `(k-1)*atomsPerFrame + i` is the
sparsified transform of the atom of bin `k` placed at shift
`firstCentre - ceil(nk/2) + i*atomSpacing`: row `(k-1)*atomsPerFrame + i` of
the dense kernel is the thresholded transform of a buffer of `fftSize` values
holding that atom at that shift and zero elsewhere, and the sparse row is
`sparsifyRow` of it under the normalisation weight of the dense kernel. -/
theorem NewCQKernel_rows (m : MathFns R) (c : CmplxFns R K) (params : CQParams R)
    (kern : CQKernel R K) (h : NewCQKernel m c params = .ok kern) :
    geometry m params = .ok kern.Properties ∧
      kern.Properties.binsPerOctave = params.BinsPerOctave ∧
      1 ≤ kern.Properties.binsPerOctave ∧ 1 ≤ kern.Properties.atomsPerFrame ∧
      (kern.kernel.data.length : Int) =
        kern.Properties.binsPerOctave * kern.Properties.atomsPerFrame ∧
      (kern.kernel.origin.length : Int) =
        kern.Properties.binsPerOctave * kern.Properties.atomsPerFrame ∧
      ∃ (dense : Kernel K) (weight : R),
        denseKernel m c params kern.Properties = .ok dense ∧
        normalisationWeight m c params.q kern.Properties dense.data = .ok weight ∧
        ∀ k i : Int, 1 ≤ k → k ≤ kern.Properties.binsPerOctave → 0 ≤ i →
          i < kern.Properties.atomsPerFrame →
          ∃ cmplxs cin cout : List K,
            binAtom m c params kern.Properties k = .ok cmplxs ∧
            (cin.length : Int) = kern.Properties.fftSize ∧
            (∀ j : Nat, (j : Int) < atomLength m params kern.Properties k →
              cin.getD ((j : Int) + (kern.Properties.firstCentre -
                roundUp ((atomLength m params kern.Properties k : R) / 2) +
                i * kern.Properties.atomSpacing)).toNat 0 = cmplxs.getD j 0) ∧
            (∀ pos : Nat,
              ((pos : Int) < kern.Properties.firstCentre -
                  roundUp ((atomLength m params kern.Properties k : R) / 2) +
                  i * kern.Properties.atomSpacing ∨
                kern.Properties.firstCentre -
                  roundUp ((atomLength m params kern.Properties k : R) / 2) +
                  i * kern.Properties.atomSpacing +
                    atomLength m params kern.Properties k ≤
                    (pos : Int)) → cin.getD pos 0 = 0) ∧
            thresholdRow c.abs params.threshold kern.Properties.fftSize
              (c.fft cin) = .ok cout ∧
            dense.data.getD ((k - 1) * kern.Properties.atomsPerFrame + i).toNat [] = cout ∧
            sparsifyRow c.abs weight cout =
              .ok (kern.kernel.origin.getD
                  ((k - 1) * kern.Properties.atomsPerFrame + i).toNat 0,
                kern.kernel.data.getD
                  ((k - 1) * kern.Properties.atomsPerFrame + i).toNat []) := by
  obtain ⟨p, dense, weight, sk, hp, hdense, hw, hsk, hk⟩ := NewCQKernel_stages m c params kern h
  subst hk
  obtain ⟨hdl, _, hrows⟩ := denseKernel_of_ok m c params p dense hdense
  obtain ⟨hsol, hsdl, hsrows⟩ := sparsify_of_ok c.abs weight dense.data sk hsk
  -- the normalisation read row 0, so the dense kernel has a row
  have hpos : 0 < dense.data.length := by
    unfold normalisationWeight at hw
    obtain ⟨first, hfirst, _⟩ := bind_ok _ _ _ hw
    obtain ⟨_, h1, _⟩ := index_of_ok _ _ _ [] hfirst
    omega
  have hb : 0 < p.binsPerOctave.toNat := by
    rw [hdl] at hpos
    exact Nat.pos_of_mul_pos_right hpos
  have ha : 0 < p.atomsPerFrame.toNat := by
    rw [hdl] at hpos
    exact Nat.pos_of_mul_pos_left hpos
  have hprod : ((p.binsPerOctave.toNat * p.atomsPerFrame.toNat : Nat) : Int) =
      p.binsPerOctave * p.atomsPerFrame := by
    push_cast
    rw [Int.toNat_of_nonneg (by omega), Int.toNat_of_nonneg (by omega)]
  refine ⟨hp, (geometry_fields m params p hp).2, ?_, ?_, ?_, ?_, dense, weight, hdense, hw, ?_⟩
  · show 1 ≤ p.binsPerOctave
    omega
  · show 1 ≤ p.atomsPerFrame
    omega
  · show (sk.data.length : Int) = _
    rw [hsdl, hdl, hprod]
  · show (sk.origin.length : Int) = _
    rw [hsol, hdl, hprod]
  · intro k i hk1 hk2 hi1 hi2
    change k ≤ p.binsPerOctave at hk2
    change i < p.atomsPerFrame at hi2
    show ∃ cmplxs cin cout : List K, binAtom m c params p k = .ok cmplxs ∧
      (cin.length : Int) = p.fftSize ∧ _ ∧ _ ∧
      thresholdRow c.abs params.threshold p.fftSize (c.fft cin) = .ok cout ∧
      dense.data.getD ((k - 1) * p.atomsPerFrame + i).toNat [] = cout ∧
      sparsifyRow c.abs weight cout =
        .ok (sk.origin.getD ((k - 1) * p.atomsPerFrame + i).toNat 0,
          sk.data.getD ((k - 1) * p.atomsPerFrame + i).toNat [])
    have hrow := hrows (k - 1).toNat i.toNat (by omega) (by omega)
    rw [Int.toNat_of_nonneg (by omega), Int.toNat_of_nonneg hi1] at hrow
    have hk3 : 1 + (k - 1) = k := by ring
    rw [hk3] at hrow
    have hidx : ((k - 1) * p.atomsPerFrame + i).toNat =
        (k - 1).toNat * p.atomsPerFrame.toNat + i.toNat := by
      have h1 : ((k - 1) * p.atomsPerFrame + i) =
          (((k - 1).toNat * p.atomsPerFrame.toNat + i.toNat : Nat) : Int) := by
        push_cast
        rw [Int.toNat_of_nonneg (by omega), Int.toNat_of_nonneg (by omega),
          Int.toNat_of_nonneg hi1]
      rw [h1, Int.toNat_ofNat]
    have hlt : (k - 1).toNat * p.atomsPerFrame.toNat + i.toNat < dense.data.length := by
      rw [hdl]
      calc (k - 1).toNat * p.atomsPerFrame.toNat + i.toNat
          < (k - 1).toNat * p.atomsPerFrame.toNat + p.atomsPerFrame.toNat := by omega
        _ = ((k - 1).toNat + 1) * p.atomsPerFrame.toNat := by ring
        _ ≤ p.binsPerOctave.toNat * p.atomsPerFrame.toNat :=
          Nat.mul_le_mul_right _ (by omega)
    unfold denseRow at hrow
    obtain ⟨cmplxs, hbin, hrow⟩ := bind_ok _ _ _ hrow
    obtain ⟨cin, hcl, hcin, hzero, hthr⟩ := atomRow_of_ok c params.threshold p cmplxs _ _ _ _ hrow
    have hfft : 0 ≤ p.fftSize := by
      unfold atomRow at hrow
      obtain ⟨_, hmk, _⟩ := bind_ok _ _ _ hrow
      exact (make_of_ok _ _ _ hmk).1
    refine ⟨cmplxs, cin, _, hbin, by rw [hcl]; omega, ?_, hzero, hthr, by rw [hidx], ?_⟩
    · intro j hj
      exact (hcin j hj).2.2
    · rw [hidx]
      exact hsrows _ hlt

/-- Witness for C17: the construction succeeds on `sampleParams` (twelve bins,
three atoms per frame, thirty-six rows) and its rows are as stated. -/
theorem NewCQKernel_rows_witness :
    ∃ kern : CQKernel ℚ ℚ, NewCQKernel rationalMath rationalCmplx sampleParams = .ok kern ∧
      (geometry rationalMath sampleParams = .ok kern.Properties ∧
          kern.Properties.binsPerOctave = sampleParams.BinsPerOctave ∧
          1 ≤ kern.Properties.binsPerOctave ∧ 1 ≤ kern.Properties.atomsPerFrame ∧
          (kern.kernel.data.length : Int) =
            kern.Properties.binsPerOctave * kern.Properties.atomsPerFrame ∧
          (kern.kernel.origin.length : Int) =
            kern.Properties.binsPerOctave * kern.Properties.atomsPerFrame ∧
          ∃ (dense : Kernel ℚ) (weight : ℚ),
            denseKernel rationalMath rationalCmplx sampleParams kern.Properties = .ok dense ∧
            normalisationWeight rationalMath rationalCmplx sampleParams.q kern.Properties dense.data = .ok weight ∧
            ∀ k i : Int, 1 ≤ k → k ≤ kern.Properties.binsPerOctave → 0 ≤ i →
              i < kern.Properties.atomsPerFrame →
              ∃ cmplxs cin cout : List ℚ,
                binAtom rationalMath rationalCmplx sampleParams kern.Properties k = .ok cmplxs ∧
                (cin.length : Int) = kern.Properties.fftSize ∧
                (∀ j : Nat, (j : Int) < atomLength rationalMath sampleParams kern.Properties k →
                  cin.getD ((j : Int) + (kern.Properties.firstCentre -
                    roundUp ((atomLength rationalMath sampleParams kern.Properties k : ℚ) / 2) +
                    i * kern.Properties.atomSpacing)).toNat 0 = cmplxs.getD j 0) ∧
                (∀ pos : Nat,
                  ((pos : Int) < kern.Properties.firstCentre -
                      roundUp ((atomLength rationalMath sampleParams kern.Properties k : ℚ) / 2) +
                      i * kern.Properties.atomSpacing ∨
                    kern.Properties.firstCentre -
                      roundUp ((atomLength rationalMath sampleParams kern.Properties k : ℚ) / 2) +
                      i * kern.Properties.atomSpacing +
                        atomLength rationalMath sampleParams kern.Properties k ≤
                        (pos : Int)) → cin.getD pos 0 = 0) ∧
                thresholdRow rationalCmplx.abs sampleParams.threshold kern.Properties.fftSize
                  (rationalCmplx.fft cin) = .ok cout ∧
                dense.data.getD ((k - 1) * kern.Properties.atomsPerFrame + i).toNat [] = cout ∧
                sparsifyRow rationalCmplx.abs weight cout =
                  .ok (kern.kernel.origin.getD
                      ((k - 1) * kern.Properties.atomsPerFrame + i).toNat 0,
                    kern.kernel.data.getD
                      ((k - 1) * kern.Properties.atomsPerFrame + i).toNat [])) :=
  match h : NewCQKernel rationalMath rationalCmplx sampleParams with
  | .ok kern => ⟨kern, rfl, NewCQKernel_rows rationalMath rationalCmplx sampleParams kern h⟩
  | .error e =>
    have hok : (NewCQKernel rationalMath rationalCmplx sampleParams).isOk = true := by decide!
    absurd (h ▸ hok) (by simp [Except.isOk, Except.toBool])

end KernelRowClaims

section WorkingSetClaims

variable {R K : Type} [LinearOrderedField R] [FloorRing R] [CommRing K]

/-- C18 (as stated, refuted): for `q = 1` and `ncols = 5` the working set is
`[|G[1][1]|]`, while `round(1/q + 0.5) = 2` under `round(x) = floor(x + 0.5)` and
no index `i` satisfies `2 ≤ i < 5 - 2 - 2`. -/
theorem workingSet_q_one :
    workingSet (fun z : ℚ => |z|) 1 5 sampleSquare = .ok [11] ∧
      CQ.round ((1 : ℚ) / 1 + 1 / 2) = 2 ∧
      ¬ ∃ i : Int, CQ.round ((1 : ℚ) / 1 + 1 / 2) ≤ i ∧
        i < 5 - CQ.round ((1 : ℚ) / 1 + 1 / 2) - 2 := by
  have hr : CQ.round ((1 : ℚ) / 1 + 1 / 2) = 2 := by decide!
  refine ⟨by decide!, hr, ?_⟩
  rintro ⟨i, h1, h2⟩
  rw [hr] at h1 h2
  omega

/-- C18 (amended): for every `q > 0` and every `ncols × ncols` matrix `G`, the
working set `wK` consists exactly of the diagonal magnitudes `|G[i][i]|` for
the indices `i` with `r ≤ i < ncols - r - 2`, in increasing order, where
`r = floor(1/q + 0.5)` is the Go conversion `int(1.0/q + 0.5)`. -/
theorem workingSet_spec (cabs : K → R) (q : R) (ncols : Int) (square : List (List K))
    (hq : 0 < q) (hrows : (square.length : Int) = ncols)
    (hcols : ∀ i : Nat, i < square.length → ((square.getD i []).length : Int) = ncols) :
    workingSet cabs q ncols square =
      .ok ((List.range (ncols - ⌊1 / q + 1 / 2⌋ - 2 - ⌊1 / q + 1 / 2⌋).toNat).map
        (fun (t : Nat) => cabs ((square.getD (⌊1 / q + 1 / 2⌋ + (t : Int)).toNat []).getD
          (⌊1 / q + 1 / 2⌋ + (t : Int)).toNat 0))) := by
  obtain ⟨htr, hr0⟩ := truncate_inv_q q hq
  unfold workingSet
  rw [htr]
  have h := forLoop_inv ⌊1 / q + 1 / 2⌋ (ncols - ⌊1 / q + 1 / 2⌋ - 2) ([] : List R)
    (fun wK i => do
      let si ← index square i
      let v ← index si i
      pure (wK ++ [cabs v]))
    (fun t wK => wK = (List.range t).map
      (fun (t : Nat) => cabs ((square.getD (⌊1 / q + 1 / 2⌋ + (t : Int)).toNat []).getD
        (⌊1 / q + 1 / 2⌋ + (t : Int)).toNat 0)))
    rfl
    (by
      intro t wK ht hinv
      have hi0 : 0 ≤ ⌊1 / q + 1 / 2⌋ + (t : Int) := by omega
      have hi1 : ⌊1 / q + 1 / 2⌋ + (t : Int) < (square.length : Int) := by omega
      have hc := hcols (⌊1 / q + 1 / 2⌋ + (t : Int)).toNat (by omega)
      refine ⟨wK ++ [cabs ((square.getD (⌊1 / q + 1 / 2⌋ + (t : Int)).toNat []).getD
        (⌊1 / q + 1 / 2⌋ + (t : Int)).toNat 0)], ?_, ?_⟩
      · simp only []
        rw [index_ok square _ [] hi0 hi1]
        simp only [bind, Except.bind]
        rw [index_ok _ _ 0 hi0 (by omega)]
        rfl
      · show _ = List.map _ (List.range (t + 1))
        rw [hinv, List.range_succ, List.map_append]
        rfl)
  obtain ⟨wK, hrun, hinv⟩ := h
  rw [hrun, hinv]

/-- Witness for C18: `q = 1`, five columns, diagonal `10, 11, 12, 13, 14`. -/
theorem workingSet_spec_witness :
    workingSet (fun z : ℚ => |z|) 1 5 sampleSquare =
      .ok ((List.range ((5 : Int) - ⌊(1 : ℚ) / 1 + 1 / 2⌋ - 2 - ⌊(1 : ℚ) / 1 + 1 / 2⌋).toNat).map
        (fun (t : Nat) => |(sampleSquare.getD (⌊(1 : ℚ) / 1 + 1 / 2⌋ + (t : Int)).toNat []).getD
          (⌊(1 : ℚ) / 1 + 1 / 2⌋ + (t : Int)).toNat 0|)) :=
  workingSet_spec (fun z : ℚ => |z|) 1 5 sampleSquare (by decide!) (by decide) (by decide)

end WorkingSetClaims

section AdjointClaims

variable {R K : Type} [CommRing K] [StarRing K]

/-- C19 (as stated, refuted): the kernel holds `1 * 1 = 1` row with
`origin + len = -1 + 1 ≤ fftSize = 1`, the spectrum has `fftSize` entries and
the coefficient vector one entry per row, and both projectors panic on the
index `-1` instead of returning the two vectors of the identity. -/
theorem adjoint_negative_origin_panics :
    ((negativeOriginKernel.kernel.data.length : Int) =
        negativeOriginKernel.Properties.binsPerOctave *
          negativeOriginKernel.Properties.atomsPerFrame ∧
      1 ≤ negativeOriginKernel.kernel.data.length ∧
      (∀ i, i < negativeOriginKernel.kernel.data.length →
        negativeOriginKernel.kernel.origin.getD i 0 +
          ((negativeOriginKernel.kernel.data.getD i []).length : Int) ≤
            negativeOriginKernel.Properties.fftSize) ∧
      ((([1] : List GaussianInt).length : Int) = negativeOriginKernel.Properties.fftSize) ∧
      ([1] : List GaussianInt).length = negativeOriginKernel.kernel.data.length) ∧
    processForward negativeOriginKernel [1] = .error .indexOutOfRange ∧
    ProcessInverse negativeOriginKernel [1] = .error .indexOutOfRange := by
  decide

/-- C19 (amended): for a kernel holding `binsPerOctave*atomsPerFrame ≥ 1` rows,
each with `0 ≤ origin` and `origin + len ≤ fftSize`, a spectrum `x` of length
`fftSize` and a coefficient vector `y` with one entry per row, both projectors
return and `ProcessInverse` is the adjoint of `processForward`:
`Σ_i processForward(x)[i] * conj(y[i]) = Σ_c x[c] * conj(ProcessInverse(y)[c])`. -/
theorem ProcessInverse_adjoint (k : CQKernel R K) (x y : List K)
    (hrows : (k.kernel.data.length : Int) =
      k.Properties.binsPerOctave * k.Properties.atomsPerFrame)
    (horig : k.kernel.origin.length = k.kernel.data.length)
    (hpos : 1 ≤ k.kernel.data.length)
    (hb : ∀ i, i < k.kernel.data.length → 0 ≤ k.kernel.origin.getD i 0 ∧
      k.kernel.origin.getD i 0 + ((k.kernel.data.getD i []).length : Int) ≤
        k.Properties.fftSize)
    (hx : (x.length : Int) = k.Properties.fftSize)
    (hy : y.length = k.kernel.data.length) :
    ∃ fx iy, processForward k x = .ok fx ∧ ProcessInverse k y = .ok iy ∧
      ∑ i in Finset.range k.kernel.data.length, fx.getD i 0 * star (y.getD i 0) =
        ∑ c in Finset.range x.length, x.getD c 0 * star (iy.getD c 0) := by
  have hfft : 0 ≤ k.Properties.fftSize := by omega
  obtain ⟨fx, hfrun, _, hfval⟩ := forward_outer k x k.kernel.data.length rfl horig
    (by
      intro i hi
      rw [hx]
      exact hb i hi)
  obtain ⟨iy, hirun, _, hival⟩ := inverse_outer k y k.kernel.data.length x.length rfl horig
    (by omega)
    (by
      intro j hj
      rw [hx]
      exact hb j hj)
  refine ⟨fx, iy, ?_, ?_, ?_⟩
  · unfold processForward
    rw [if_neg (by omega), ← hrows]
    simp only []
    rw [make_ok _ _ (by omega)]
    simpa using hfrun
  · unfold ProcessInverse
    rw [if_neg (by omega), ← hrows, ← hx]
    simp only []
    rw [make_ok _ _ (by omega)]
    simpa using hirun
  · have hR : ∀ c ∈ Finset.range x.length, x.getD c 0 * star (iy.getD c 0) =
        ∑ i in Finset.range k.kernel.data.length,
          if k.kernel.origin.getD i 0 ≤ (c : Int) ∧
              (c : Int) < k.kernel.origin.getD i 0 + ((k.kernel.data.getD i []).length : Int)
          then star (y.getD i 0) * (x.getD c 0 *
            (k.kernel.data.getD i []).getD ((c : Int) - k.kernel.origin.getD i 0).toNat 0)
          else 0 := by
      intro c _
      rw [hival c, star_sum, Finset.mul_sum]
      apply Finset.sum_congr rfl
      intro i _
      split
      · rw [star_mul, star_star]
        ring
      · rw [star_zero, mul_zero]
    rw [Finset.sum_congr rfl hR, Finset.sum_comm]
    apply Finset.sum_congr rfl
    intro i hi
    have hi2 : i < k.kernel.data.length := Finset.mem_range.1 hi
    obtain ⟨ho, hlen⟩ := hb i hi2
    rw [sum_window (k.kernel.origin.getD i 0) (k.kernel.data.getD i []).length x.length ho
      (by omega)
      (fun c => star (y.getD i 0) * (x.getD c 0 *
        (k.kernel.data.getD i []).getD ((c : Int) - k.kernel.origin.getD i 0).toNat 0)),
      hfval i hi2, Finset.sum_mul]
    apply Finset.sum_congr rfl
    intro j _
    have e1 : ((j : Int) + k.kernel.origin.getD i 0).toNat =
        (k.kernel.origin.getD i 0).toNat + j := by omega
    have e2 : ((((k.kernel.origin.getD i 0).toNat + j : Nat) : Int) -
        k.kernel.origin.getD i 0).toNat = j := by omega
    simp only [e1, e2]
    ring

/-- Witness for C19: the two-row sample kernel, a four-entry spectrum and two
coefficients. -/
theorem ProcessInverse_adjoint_witness :
    ∃ fx iy, processForward sampleKernel [⟨1, 0⟩, ⟨0, 1⟩, ⟨1, 1⟩, ⟨2, -1⟩] = .ok fx ∧
      ProcessInverse sampleKernel [⟨1, 2⟩, ⟨0, 1⟩] = .ok iy ∧
      ∑ i in Finset.range sampleKernel.kernel.data.length,
          fx.getD i 0 * star (List.getD [(⟨1, 2⟩ : GaussianInt), ⟨0, 1⟩] i 0) =
        ∑ c in Finset.range
            ([⟨1, 0⟩, ⟨0, 1⟩, ⟨1, 1⟩, ⟨2, -1⟩] : List GaussianInt).length,
          List.getD [(⟨1, 0⟩ : GaussianInt), ⟨0, 1⟩, ⟨1, 1⟩, ⟨2, -1⟩] c 0 * star (iy.getD c 0) :=
  ProcessInverse_adjoint sampleKernel [⟨1, 0⟩, ⟨0, 1⟩, ⟨1, 1⟩, ⟨2, -1⟩] [⟨1, 2⟩, ⟨0, 1⟩]
    (by decide) (by decide) (by decide) (by decide) (by decide) (by decide)

end AdjointClaims

end CQ
